import Mathlib

/-!
# The extraction lifecycle of `unpacker/pollers.go`

A shallow embedding of the pollers of the unpacker package: the queue pollers
(`PollSonarr`, `PollRadarr`), the advancement pass (`CheckExtractDone` and the
tasks it starts: `finishFinished`, `handleSonarr`, `handleRadarr`,
`HandleExtractDone`) and the detection pass (`CheckSonarrQueue`,
`CheckRadarrQueue`, `HandleCompleted`).

Conventions of the embedding.

* The receiver `u *Unpackerr` is an explicit state that every method takes and
  returns. Locks are not modelled: every method body that mutates the history
  runs under the exclusive lock for its whole length, so it is one atomic step.
* `go f(..)` inside a pass is a task put on a list; the pass holds the read
  lock until it returns, so no task runs before the enumeration is over. The
  tasks are then run one after the other, in any order.
* Instants and durations are integers (nanoseconds); `time.Since t` is
  `now - t`, with one clock reading `now` per call, for instants close enough
  for the difference to be a `time.Duration`. The one arithmetic operation of
  pollers.go on a duration, the product `u.DeleteDelay.Duration*2`, is computed
  in 64 bits as Go does (`wrapInt64`).
* Calls to collaborators that only have an effect outside the state
  (`deleteFiles`, `extractFiles`) are recorded in a trace kept in the state.
  Log statements are dropped.
-/

namespace Unpacker

/-- The constant `torrent` of pollers.go: "torrent is what we care about". -/
def torrent : String := "torrent"

/-- Modelled from the spec: the ordered enumeration `ExtractStatus`, whose
declaration is not in pollers.go. The spec fixes its six values and their order
`QUEUED < EXTRACTING < EXTRACTED < IMPORTED < DELETED < FINISHED`. -/
inductive ExtractStatus
  | QUEUED
  | EXTRACTING
  | EXTRACTED
  | IMPORTED
  | DELETED
  | FINISHED
  deriving DecidableEq, Repr

/-- Position of a status in the enumeration order. -/
def ExtractStatus.rank : ExtractStatus → Nat
  | .QUEUED => 0
  | .EXTRACTING => 1
  | .EXTRACTED => 2
  | .IMPORTED => 3
  | .DELETED => 4
  | .FINISHED => 5

instance : LE ExtractStatus := ⟨fun a b => a.rank ≤ b.rank⟩

instance : LT ExtractStatus := ⟨fun a b => a.rank < b.rank⟩

instance (a b : ExtractStatus) : Decidable (a ≤ b) :=
  inferInstanceAs (Decidable (a.rank ≤ b.rank))

instance (a b : ExtractStatus) : Decidable (a < b) :=
  inferInstanceAs (Decidable (a.rank < b.rank))

open ExtractStatus

/-- Modelled from the spec: the record type `Extracts` (the spec's
ExtractionRecord), whose declaration is not in pollers.go. The fields are the
ones pollers.go reads or writes; the record's name is the key of the map. -/
structure Extracts where
  App : String
  Files : List String
  Status : ExtractStatus
  Updated : Int
  deriving DecidableEq, Repr

/-- One entry of an application's download queue. Its declaration is not in
pollers.go; the fields are the ones pollers.go branches on (`Size`, `Sizeleft`
and `Episode` are only read by log statements). -/
structure QueueItem where
  Title : String
  Status : String
  Protocol : String
  deriving DecidableEq, Repr

/-- The two base paths of the configuration that pollers.go reads. -/
structure Config where
  SonarrPath : String
  RadarrPath : String
  deriving DecidableEq, Repr

/-- The history `u.History`: the map from name to record and the counter
`Finished`. A Go map has one value per key, which is what `AList` keeps. -/
structure History where
  Map : AList (fun _ : String => Extracts)
  Finished : Nat
  deriving DecidableEq

/-- The state of `Unpackerr` that pollers.go touches, with the two traces of
calls to collaborators: `Deleted` holds the argument of every `deleteFiles`
call, `Extracting` the arguments of every `extractFiles` call, oldest first. -/
structure Unpackerr where
  Config : Config
  DeleteDelay : Int
  SonarrQ : List QueueItem
  RadarrQ : List QueueItem
  History : History
  Deleted : List (List String)
  Extracting : List (String × String × List String)
  deriving DecidableEq

/-- Helpers of the repository that pollers.go calls and that are declared in
other files, taken as parameters: the two live-queue lookups (they read the
cached queue list and the name), the archive locator `FindRarFiles` and
`filepath.Join`. -/
structure Helpers where
  getSonarQitem : List QueueItem → String → QueueItem
  getRadarQitem : List QueueItem → String → QueueItem
  FindRarFiles : String → List String
  filepathJoin : String → String → String

/-- The call `deleteFiles(files)`: an effect on the disk, recorded in the trace. -/
def deleteFiles (u : Unpackerr) (files : List String) : Unpackerr :=
  { u with Deleted := u.Deleted ++ [files] }

/-- The call `u.extractFiles(name, path, files)`: it starts the archiver in the
background; the call is recorded in the trace. -/
def extractFiles (u : Unpackerr) (name path : String) (files : List String) : Unpackerr :=
  { u with Extracting := u.Extracting ++ [(name, path, files)] }

/-- Modelled from the spec: `CreateStatus`, declared outside pollers.go. The spec
says of it: "create an ExtractionRecord with `status = EXTRACTING`,
`updated = now`, store it". -/
def CreateStatus (now : Int) (u : Unpackerr) (name _path app : String)
    (files : List String) : Unpackerr :=
  { u with History :=
      { u.History with
        Map := u.History.Map.insert name
          { App := app, Files := files, Status := EXTRACTING, Updated := now } } }

/-- `PollSonarr`: `fetched` is what `u.Sonarr.SonarrQueue()` returned, a list and
an optional error. The list is assigned to `u.SonarrQ.List` in the init clause
of the `if`, then the error is tested. -/
def PollSonarr (u : Unpackerr) (fetched : List QueueItem × Option String) :
    Unpackerr × Option String :=
  let u1 := { u with SonarrQ := fetched.1 }
  match fetched.2 with
  | some err => (u1, some err)
  | none => (u1, none)

/-- `PollRadarr`: as `PollSonarr`, on `u.RadarrQ.List`. -/
def PollRadarr (u : Unpackerr) (fetched : List QueueItem × Option String) :
    Unpackerr × Option String :=
  let u1 := { u with RadarrQ := fetched.1 }
  match fetched.2 with
  | some err => (u1, some err)
  | none => (u1, none)

/-- `finishFinished(app, name)`: count one more finished item and delete the
name from the map. -/
def finishFinished (u : Unpackerr) (_app name : String) : Unpackerr :=
  { u with History :=
      { Map := u.History.Map.erase name, Finished := u.History.Finished + 1 } }

/-- `HandleExtractDone(data, name)`: the status the record should have now; the
files are deleted on the way when the delete delay has passed. -/
def HandleExtractDone (now : Int) (u : Unpackerr) (data : Extracts) (_name : String) :
    Unpackerr × ExtractStatus :=
  let elapsed := now - data.Updated
  if data.Status ≠ IMPORTED then (u, IMPORTED)
  else if elapsed ≥ u.DeleteDelay then (deleteFiles u data.Files, DELETED)
  else (u, data.Status)

/-- `handleRadarr(data, name)`: `data` is the copy of the record that the
pass took while enumerating the map. -/
def handleRadarr (h : Helpers) (now : Int) (u : Unpackerr) (data : Extracts)
    (name : String) : Unpackerr :=
  let item := h.getRadarQitem u.RadarrQ name
  if item.Status ≠ "" then u
  else if item.Protocol ≠ torrent ∧ item.Protocol ≠ "" then u
  else
    let r := HandleExtractDone now u data name
    if r.2 ≠ data.Status then
      { r.1 with History :=
          { r.1.History with
            Map := r.1.History.Map.insert name
              { data with Status := r.2, Updated := now } } }
    else r.1

/-- `handleSonarr(data, name)`: `data` is the copy of the record that the
pass took while enumerating the map. -/
def handleSonarr (h : Helpers) (now : Int) (u : Unpackerr) (data : Extracts)
    (name : String) : Unpackerr :=
  let item := h.getSonarQitem u.SonarrQ name
  if item.Status ≠ "" then u
  else if item.Protocol ≠ torrent ∧ item.Protocol ≠ "" then u
  else
    let r := HandleExtractDone now u data name
    if r.2 ≠ data.Status then
      { r.1 with History :=
          { r.1.History with
            Map := r.1.History.Map.insert name
              { data with Status := r.2, Updated := now } } }
    else r.1

/-- A task started with `go` by `CheckExtractDone`, with its arguments. -/
inductive Job
  | finishFinished (app name : String)
  | handleSonarr (data : Extracts) (name : String)
  | handleRadarr (data : Extracts) (name : String)
  deriving DecidableEq

/-- The name a task works on. -/
def Job.name : Job → String
  | .finishFinished _ name => name
  | .handleSonarr _ name => name
  | .handleRadarr _ name => name

/-- The value of an `int64` expression whose exact result is `x`: Go wraps it
into the range from `-2^63` to `2^63 - 1`. -/
def wrapInt64 (x : Int) : Int :=
  (x + 9223372036854775808) % 18446744073709551616 - 9223372036854775808

/-- The `switch` in the loop body of `CheckExtractDone` for one map entry: the
task it starts, if any. The product `u.DeleteDelay.Duration*2` is a product of
`int64` values. -/
def checkEntry (deleteDelay now : Int) (name : String) (data : Extracts) : Option Job :=
  if data.Status ≥ DELETED ∧ now - data.Updated ≥ wrapInt64 (deleteDelay * 2) then
    some (Job.finishFinished data.App name)
  else if data.Status < EXTRACTED ∨ data.Status > IMPORTED then none
  else if data.App = "Sonarr" then some (Job.handleSonarr data name)
  else if data.App = "Radarr" then some (Job.handleRadarr data name)
  else none

/-- `CheckExtractDone`: the tasks started while ranging over the map, in the
order of the enumeration. The history is only read. -/
def CheckExtractDone (now : Int) (u : Unpackerr) : List Job :=
  u.History.Map.entries.filterMap (fun e => checkEntry u.DeleteDelay now e.1 e.2)

/-- Running one task to its end. -/
def Job.run (h : Helpers) (now : Int) (u : Unpackerr) : Job → Unpackerr
  | .finishFinished app name => Unpacker.finishFinished u app name
  | .handleSonarr data name => Unpacker.handleSonarr h now u data name
  | .handleRadarr data name => Unpacker.handleRadarr h now u data name

/-- Running a list of tasks one after the other. -/
def runTasks (h : Helpers) (now : Int) (ts : List Job) (u : Unpackerr) : Unpackerr :=
  ts.foldl (Job.run h now) u

/-- One advancement pass: `CheckExtractDone`, then every task it started, run
once, in the order of the enumeration. -/
def advance (h : Helpers) (now : Int) (u : Unpackerr) : Unpackerr :=
  runTasks h now (CheckExtractDone now u) u

/-- The arguments of one `go u.HandleCompleted(name, app, path)`. -/
structure Completed where
  name : String
  app : String
  path : String
  deriving DecidableEq, Repr

/-- The loop body of `CheckSonarrQueue` for one queue item. -/
def checkSonarrItem (cfg : Config) (q : QueueItem) : Option Completed :=
  if q.Status = "Completed" ∧ q.Protocol = torrent then
    some { name := q.Title, app := "Sonarr", path := cfg.SonarrPath }
  else none

/-- `CheckSonarrQueue`: the `HandleCompleted` calls started for the cached list. -/
def CheckSonarrQueue (u : Unpackerr) : List Completed :=
  u.SonarrQ.filterMap (checkSonarrItem u.Config)

/-- The loop body of `CheckRadarrQueue` for one queue item. -/
def checkRadarrItem (cfg : Config) (q : QueueItem) : Option Completed :=
  if q.Status = "Completed" ∧ q.Protocol = torrent then
    some { name := q.Title, app := "Radarr", path := cfg.RadarrPath }
  else none

/-- `CheckRadarrQueue`: the `HandleCompleted` calls started for the cached list. -/
def CheckRadarrQueue (u : Unpackerr) : List Completed :=
  u.RadarrQ.filterMap (checkRadarrItem u.Config)

/-- `historyExists(name)`. -/
def historyExists (u : Unpackerr) (name : String) : Bool :=
  (u.History.Map.lookup name).isSome

/-- `HandleCompleted(name, app, path)`. -/
def HandleCompleted (h : Helpers) (now : Int) (u : Unpackerr) (name app path : String) :
    Unpackerr :=
  let path := h.filepathJoin path name
  let files := h.FindRarFiles path
  if !historyExists u name then
    if files.length > 0 then
      extractFiles (CreateStatus now u name path app files) name path files
    else u
  else u

/-- A queue item used in the concrete evaluations below. -/
def sampleItem : QueueItem :=
  { Title := "Show.S01E01", Status := "Completed", Protocol := "torrent" }

/-- A record used in the concrete evaluations below. -/
def sampleRecord : Extracts :=
  { App := "Sonarr", Files := ["a.rar"], Status := DELETED, Updated := 0 }

/-- Helpers used in the concrete evaluations below: both lookups find nothing
(they return the zero item), the locator finds one archive, and the join puts a
slash between its arguments. -/
def sampleHelpers : Helpers :=
  { getSonarQitem := fun _ _ => QueueItem.mk "" "" "",
    getRadarQitem := fun _ _ => QueueItem.mk "" "" "",
    FindRarFiles := fun path => [path ++ "/a.rar"],
    filepathJoin := fun dir name => dir ++ "/" ++ name }

/-- Helpers for which both lookups find the sample item, whose status is not
empty. -/
def sampleBusyHelpers : Helpers :=
  { sampleHelpers with
    getSonarQitem := fun _ _ => sampleItem,
    getRadarQitem := fun _ _ => sampleItem }

/-- A completed download that is not a torrent. -/
def usenetItem : QueueItem :=
  { Title := "Show.S02E01", Status := "Completed", Protocol := "usenet" }

/-- A queue entry with empty status that is not a torrent. -/
def usenetIdle : QueueItem :=
  { Title := "Show.S01E01", Status := "", Protocol := "usenet" }

/-- Helpers for which both lookups find `usenetIdle`. -/
def sampleUsenetHelpers : Helpers :=
  { sampleHelpers with
    getSonarQitem := fun _ _ => usenetIdle,
    getRadarQitem := fun _ _ => usenetIdle }

/-- The sample record once its extraction is over. -/
def sampleExtracted : Extracts :=
  { sampleRecord with Status := EXTRACTED }

/-- A state used in the concrete evaluations below: a delete delay of one hour,
one item cached for each application, one record in the history. -/
def sampleState : Unpackerr :=
  { Config := { SonarrPath := "/tv", RadarrPath := "/movies" },
    DeleteDelay := 3600000000000,
    SonarrQ := [sampleItem],
    RadarrQ := [sampleItem],
    History := { Map := AList.insert "Show.S01E01" sampleRecord ∅, Finished := 0 },
    Deleted := [],
    Extracting := [] }

/-- The sample state with its record just extracted: status `EXTRACTED`. -/
def sampleTracked : Unpackerr :=
  { sampleState with
    History := { Map := AList.insert "Show.S01E01" sampleExtracted ∅, Finished := 0 } }

/-- The result of a handler once its lookup has returned `item`, with
`HandleExtractDone` unfolded: a normal form used in the proofs (see
`handleSonarr_eq_handled` and `handleRadarr_eq_handled`). -/
def handled (now : Int) (u : Unpackerr) (item : QueueItem) (data : Extracts)
    (name : String) : Unpackerr :=
  if item.Status ≠ "" then u
  else if item.Protocol ≠ torrent ∧ item.Protocol ≠ "" then u
  else if data.Status ≠ IMPORTED then
    { u with History :=
        { u.History with
          Map := u.History.Map.insert name { data with Status := IMPORTED, Updated := now } } }
  else if now - data.Updated ≥ u.DeleteDelay then
    { u with
      Deleted := u.Deleted ++ [data.Files],
      History :=
        { u.History with
          Map := u.History.Map.insert name { data with Status := DELETED, Updated := now } } }
  else u

/-- The sample record once it is imported: status `IMPORTED`, updated at 0. -/
def sampleImported : Extracts :=
  { sampleRecord with Status := IMPORTED }

/-- The handler of the spec, one for all applications, following the spec's
words: `FetchQueueItem` is the capability that looks a name up in the live queue
of the application. A live item with non-empty status: no action. A live item
whose protocol is neither "torrent" nor empty: no action. Otherwise, if
`status != IMPORTED`, set `status = IMPORTED`, `updated = now`; else if
`now - updated ≥ deleteDelay`, invoke the deleter on the files and set
`status = DELETED`, `updated = now`; else no change. -/
def unifiedHandler (FetchQueueItem : String → QueueItem) (now : Int) (u : Unpackerr)
    (data : Extracts) (name : String) : Unpackerr :=
  let item := FetchQueueItem name
  if item.Status ≠ "" then u
  else if item.Protocol ≠ torrent ∧ item.Protocol ≠ "" then u
  else if data.Status ≠ IMPORTED then
    { u with History :=
        { u.History with
          Map := u.History.Map.insert name { data with Status := IMPORTED, Updated := now } } }
  else if now - data.Updated ≥ u.DeleteDelay then
    { deleteFiles u data.Files with History :=
        { u.History with
          Map := u.History.Map.insert name { data with Status := DELETED, Updated := now } } }
  else u

/-- The sample state after its record has been reaped: the map is empty and one
item has been counted. -/
def sampleReaped : Unpackerr :=
  finishFinished sampleState "Sonarr" "Show.S01E01"

/-- A state whose only record is `EXTRACTED` and owned by an application that is
neither "Sonarr" nor "Radarr". -/
def sampleLidarr : Unpackerr :=
  { sampleState with
    History :=
      { Map := AList.insert "Album.2020"
          { App := "Lidarr", Files := ["b.rar"], Status := EXTRACTED, Updated := 0 } ∅,
        Finished := 0 } }

/-- Running the `HandleCompleted` calls that a detection pass started, one after
the other. -/
def runCompleted (h : Helpers) (now : Int) (cs : List Completed) (u : Unpackerr) :
    Unpackerr :=
  cs.foldl (fun v c => HandleCompleted h now v c.name c.app c.path) u

/-- Helpers whose locator finds no archive. -/
def sampleEmptyHelpers : Helpers :=
  { sampleHelpers with FindRarFiles := fun _ => [] }

/-- A state with an empty history. -/
def sampleFresh : Unpackerr :=
  { sampleState with History := { Map := ∅, Finished := 0 } }

/-- Whether a handler that got `item` from its lookup and `data` as copy calls
`deleteFiles`: it passes both early returns and `HandleExtractDone` takes its
second case. -/
def callsDelete (item : QueueItem) (deleteDelay now : Int) (data : Extracts) : Bool :=
  decide (item.Status = "" ∧ ¬ (item.Protocol ≠ torrent ∧ item.Protocol ≠ "") ∧
    data.Status = IMPORTED ∧ now - data.Updated ≥ deleteDelay)

/-- The `deleteFiles` call a job makes when it runs on `u`, if it makes one: the
name the job works on and the files handed to `deleteFiles`. It names the record
behind an entry of the trace `Deleted` (see `Job.run_Deleted`). -/
def Job.deleted (h : Helpers) (now : Int) (u : Unpackerr) : Job → Option (String × List String)
  | .finishFinished _ _ => none
  | .handleSonarr data name =>
    if callsDelete (h.getSonarQitem u.SonarrQ name) u.DeleteDelay now data then
      some (name, data.Files)
    else none
  | .handleRadarr data name =>
    if callsDelete (h.getRadarQitem u.RadarrQ name) u.DeleteDelay now data then
      some (name, data.Files)
    else none

/-- The `deleteFiles` calls of one advancement pass on `u`, each with the name
of its record, in the order of the jobs. -/
def passDeletes (h : Helpers) (now : Int) (u : Unpackerr) : List (String × List String) :=
  (CheckExtractDone now u).filterMap (Job.deleted h now u)

/-- A run of advancement passes, oldest first; every pass has its own time and
its own lookups, since the cached queues may change between two passes. -/
def advanceAll (ps : List (Helpers × Int)) (u : Unpackerr) : Unpackerr :=
  ps.foldl (fun v p => advance p.1 p.2 v) u

/-- The sample state with its record `IMPORTED` at time 0. -/
def sampleImportedState : Unpackerr :=
  { sampleState with
    History := { Map := AList.insert "Show.S01E01" sampleImported ∅, Finished := 0 } }

/-- The sample state with a delete delay of `2^62` ns (about 146 years), for
which the 64-bit product `DeleteDelay*2` wraps to `-2^63`. Its record is
`DELETED` since time 0. -/
def sampleLongDelay : Unpackerr :=
  { sampleState with DeleteDelay := 4611686018427387904 }

/-- Helpers for which the Sonarr lookup finds nothing and the Radarr lookup finds
the sample item, whose status is not empty. -/
def sampleSonarrOnlyHelpers : Helpers :=
  { sampleHelpers with getRadarQitem := fun _ _ => sampleItem }

/-! ## The time-gated transition -/

/-- C1. `HandleExtractDone` returns `DELETED` exactly when the record's status is
`IMPORTED` and `now - updated ≥ deleteDelay`; in that case it calls `deleteFiles`
on the record's files once, and in every other case it calls nothing. In
particular an `IMPORTED` record younger than the delete delay keeps `IMPORTED`
and no delete is issued. -/
theorem HandleExtractDone_deleted_iff (now : Int) (u : Unpackerr) (data : Extracts)
    (name : String) :
    ((HandleExtractDone now u data name).2 = DELETED ↔
        (data.Status = IMPORTED ∧ now - data.Updated ≥ u.DeleteDelay)) ∧
    ((HandleExtractDone now u data name).1.Deleted = u.Deleted ++ [data.Files] ↔
        (data.Status = IMPORTED ∧ now - data.Updated ≥ u.DeleteDelay)) ∧
    (¬ (data.Status = IMPORTED ∧ now - data.Updated ≥ u.DeleteDelay) →
        (HandleExtractDone now u data name).1 = u) ∧
    (data.Status = IMPORTED ∧ now - data.Updated < u.DeleteDelay →
        HandleExtractDone now u data name = (u, IMPORTED)) := by
  unfold HandleExtractDone
  by_cases hs : data.Status = IMPORTED
  · by_cases ht : now - data.Updated ≥ u.DeleteDelay
    · have hlt : ¬ (now - data.Updated < u.DeleteDelay) := not_lt.mpr ht
      simp [hs, ht, hlt, deleteFiles]
    · have hlt : now - data.Updated < u.DeleteDelay := not_le.mp ht
      simp [hs, ht, hlt]
  · simp [hs]

/-! ## The queue pollers -/

/-- Both pollers store the fetched list and return the fetched error, whatever
the error is. -/
theorem Poll_stores_fetched (u : Unpackerr) (fetched : List QueueItem × Option String) :
    PollSonarr u fetched = ({ u with SonarrQ := fetched.1 }, fetched.2) ∧
    PollRadarr u fetched = ({ u with RadarrQ := fetched.1 }, fetched.2) := by
  unfold PollSonarr PollRadarr
  cases h : fetched.2 <;> simp

/-- C4. With one item cached for each application and a queue source that
returns no items and the error "timeout", `PollSonarr` and `PollRadarr` return
the error and leave an empty cached list: the cache is not what it was before
the call. -/
theorem Poll_error_overwrites_cache :
    sampleState.SonarrQ = [sampleItem] ∧
    (PollSonarr sampleState ([], some "timeout")).2 = some "timeout" ∧
    (PollSonarr sampleState ([], some "timeout")).1.SonarrQ = [] ∧
    (PollSonarr sampleState ([], some "timeout")).1.SonarrQ ≠ sampleState.SonarrQ ∧
    sampleState.RadarrQ = [sampleItem] ∧
    (PollRadarr sampleState ([], some "timeout")).2 = some "timeout" ∧
    (PollRadarr sampleState ([], some "timeout")).1.RadarrQ = [] ∧
    (PollRadarr sampleState ([], some "timeout")).1.RadarrQ ≠ sampleState.RadarrQ := by
  simp [PollSonarr, PollRadarr, sampleState]

/-! ## The handlers -/

theorem handleSonarr_eq_handled (h : Helpers) (now : Int) (u : Unpackerr) (data : Extracts)
    (name : String) :
    handleSonarr h now u data name = handled now u (h.getSonarQitem u.SonarrQ name) data name := by
  unfold handleSonarr handled HandleExtractDone deleteFiles
  by_cases h1 : (h.getSonarQitem u.SonarrQ name).Status = ""
  · by_cases h2 : (h.getSonarQitem u.SonarrQ name).Protocol ≠ torrent ∧
        (h.getSonarQitem u.SonarrQ name).Protocol ≠ ""
    · simp [h1, h2]
    · by_cases hs : data.Status = IMPORTED
      · by_cases ht : now - data.Updated ≥ u.DeleteDelay
        · simp [h1, h2, hs, ht]
        · simp [h1, h2, hs, ht]
      · simp [h1, h2, hs]
        intro hs2
        exact absurd hs2.symm hs
  · simp [h1]

theorem handleRadarr_eq_handled (h : Helpers) (now : Int) (u : Unpackerr) (data : Extracts)
    (name : String) :
    handleRadarr h now u data name = handled now u (h.getRadarQitem u.RadarrQ name) data name := by
  unfold handleRadarr handled HandleExtractDone deleteFiles
  by_cases h1 : (h.getRadarQitem u.RadarrQ name).Status = ""
  · by_cases h2 : (h.getRadarQitem u.RadarrQ name).Protocol ≠ torrent ∧
        (h.getRadarQitem u.RadarrQ name).Protocol ≠ ""
    · simp [h1, h2]
    · by_cases hs : data.Status = IMPORTED
      · by_cases ht : now - data.Updated ≥ u.DeleteDelay
        · simp [h1, h2, hs, ht]
        · simp [h1, h2, hs, ht]
      · simp [h1, h2, hs]
        intro hs2
        exact absurd hs2.symm hs
  · simp [h1]

/-- C7. When the record handed to a handler has a status other than `IMPORTED`
and the lookup returns an item with empty status whose protocol is "torrent" or
empty, the handler stores under the name the record with status `IMPORTED`,
`updated = now` and the same app and files, and calls `deleteFiles` for nothing. -/
theorem handler_import_transition (h : Helpers) (now : Int) (u : Unpackerr)
    (data : Extracts) (name : String) (hs : data.Status ≠ IMPORTED) :
    ((h.getSonarQitem u.SonarrQ name).Status = "" →
      ((h.getSonarQitem u.SonarrQ name).Protocol = torrent ∨
        (h.getSonarQitem u.SonarrQ name).Protocol = "") →
      (handleSonarr h now u data name).History.Map.lookup name =
          some { App := data.App, Files := data.Files, Status := IMPORTED, Updated := now } ∧
        (handleSonarr h now u data name).Deleted = u.Deleted) ∧
    ((h.getRadarQitem u.RadarrQ name).Status = "" →
      ((h.getRadarQitem u.RadarrQ name).Protocol = torrent ∨
        (h.getRadarQitem u.RadarrQ name).Protocol = "") →
      (handleRadarr h now u data name).History.Map.lookup name =
          some { App := data.App, Files := data.Files, Status := IMPORTED, Updated := now } ∧
        (handleRadarr h now u data name).Deleted = u.Deleted) := by
  rw [handleSonarr_eq_handled, handleRadarr_eq_handled]
  constructor
  · intro h1 h2
    have h3 : ¬ ((h.getSonarQitem u.SonarrQ name).Protocol ≠ torrent ∧
        (h.getSonarQitem u.SonarrQ name).Protocol ≠ "") := by
      rintro ⟨ha, hb⟩
      exact h2.elim ha hb
    simp only [handled, h1, ne_eq, not_true_eq_false, if_false, h3, hs, not_false_eq_true,
      if_true, AList.lookup_insert, and_self]
  · intro h1 h2
    have h3 : ¬ ((h.getRadarQitem u.RadarrQ name).Protocol ≠ torrent ∧
        (h.getRadarQitem u.RadarrQ name).Protocol ≠ "") := by
      rintro ⟨ha, hb⟩
      exact h2.elim ha hb
    simp only [handled, h1, ne_eq, not_true_eq_false, if_false, h3, hs, not_false_eq_true,
      if_true, AList.lookup_insert, and_self]

/-- The import transition at work: an `EXTRACTED` record whose name is not in the
live queue (the lookup returns the zero item) becomes `IMPORTED` at time 5. -/
theorem handler_import_transition_witness :
    (handleSonarr sampleHelpers 5 sampleState sampleExtracted "Show.S01E01").History.Map.lookup
        "Show.S01E01" = some (Extracts.mk "Sonarr" ["a.rar"] IMPORTED 5) ∧
    (handleSonarr sampleHelpers 5 sampleState sampleExtracted "Show.S01E01").Deleted =
        sampleState.Deleted :=
  (handler_import_transition sampleHelpers 5 sampleState sampleExtracted "Show.S01E01"
    (by decide)).1 rfl (Or.inr rfl)

/-- C8. When the lookup returns an item with a non-empty status, the handler
returns the state it was given: the map, the finished counter and the trace of
deletes are unchanged, whatever the record's status and age. -/
theorem handler_awaiting_import (h : Helpers) (now : Int) (u : Unpackerr)
    (data : Extracts) (name : String) :
    ((h.getSonarQitem u.SonarrQ name).Status ≠ "" → handleSonarr h now u data name = u) ∧
    ((h.getRadarQitem u.RadarrQ name).Status ≠ "" → handleRadarr h now u data name = u) := by
  rw [handleSonarr_eq_handled, handleRadarr_eq_handled]
  constructor <;> intro h1 <;> simp [handled, h1]

/-- The blocked handler at work: the lookup finds an item whose status is
"Completed", and the `IMPORTED` record, older than the delete delay, is left
alone. -/
theorem handler_awaiting_import_witness :
    handleSonarr sampleBusyHelpers 7200000000000 sampleState
      { sampleRecord with Status := IMPORTED } "Show.S01E01" = sampleState :=
  (handler_awaiting_import sampleBusyHelpers 7200000000000 sampleState
    { sampleRecord with Status := IMPORTED } "Show.S01E01").1 (by decide)

/-! ## The reaper -/

/-- Erasing a name that is not in the map changes nothing. -/
theorem erase_of_lookup_none (m : AList (fun _ : String => Extracts)) (name : String)
    (hn : m.lookup name = none) : m.erase name = m := by
  apply AList.ext
  have hk : name ∉ m.entries.keys := AList.lookup_eq_none.mp hn
  simpa [AList.erase] using List.kerase_of_not_mem_keys hk

/-- C9. `finishFinished(app, name)` gives a history in which `name` is absent,
every other name maps to what it mapped to before, and the finished counter is
the previous counter plus one. This holds for every history, so in particular
for one that holds a record for `name`. -/
theorem finishFinished_removes_and_counts (u : Unpackerr) (app name : String) :
    (finishFinished u app name).History.Map.lookup name = none ∧
    (∀ other : String, other ≠ name →
      (finishFinished u app name).History.Map.lookup other = u.History.Map.lookup other) ∧
    (finishFinished u app name).History.Finished = u.History.Finished + 1 := by
  refine ⟨?_, ?_, rfl⟩
  · exact AList.lookup_erase name u.History.Map
  · intro other hne
    exact AList.lookup_erase_ne hne

/-- Counterexample to C10: on the sample state, whose history holds the record
"Show.S01E01" and has counted 0 finished items, one `finishFinished` for that
name leaves the counter at 1 and a second one at 2, so applying it twice does
not give the history that applying it once gives. -/
theorem finishFinished_twice_counts_twice :
    (sampleState.History.Map.lookup "Show.S01E01").isSome = true ∧
    (finishFinished sampleState "Sonarr" "Show.S01E01").History.Finished = 1 ∧
    (finishFinished (finishFinished sampleState "Sonarr" "Show.S01E01")
        "Sonarr" "Show.S01E01").History.Finished = 2 ∧
    (finishFinished (finishFinished sampleState "Sonarr" "Show.S01E01")
        "Sonarr" "Show.S01E01").History ≠
      (finishFinished sampleState "Sonarr" "Show.S01E01").History := by
  refine ⟨by decide, rfl, rfl, ?_⟩
  intro heq
  have hf := congrArg History.Finished heq
  exact absurd hf (by decide)

/-- C10, amended. Applying `finishFinished` twice for a name gives the same map
as applying it once, and for a name that is not in the history the map is
unchanged; the finished counter goes up by one on every call, so by two after
two calls, whether the name is in the history or not. -/
theorem finishFinished_twice (u : Unpackerr) (app name : String) :
    (finishFinished (finishFinished u app name) app name).History.Map =
      (finishFinished u app name).History.Map ∧
    (finishFinished (finishFinished u app name) app name).History.Finished =
      u.History.Finished + 2 ∧
    (u.History.Map.lookup name = none →
      (finishFinished u app name).History.Map = u.History.Map ∧
      (finishFinished u app name).History.Finished = u.History.Finished + 1) := by
  refine ⟨?_, rfl, ?_⟩
  · exact erase_of_lookup_none _ name (AList.lookup_erase name u.History.Map)
  · intro hn
    exact ⟨erase_of_lookup_none _ name hn, rfl⟩

/-- The amended C10 on the sample state after one reaping: the name is gone, a
further `finishFinished` keeps the map and counts once more. -/
theorem finishFinished_twice_witness :
    (finishFinished sampleState "Sonarr" "Show.S01E01").History.Map.lookup "Show.S01E01" = none ∧
    (finishFinished (finishFinished sampleState "Sonarr" "Show.S01E01")
        "Sonarr" "Show.S01E01").History.Map =
      (finishFinished sampleState "Sonarr" "Show.S01E01").History.Map ∧
    (finishFinished (finishFinished sampleState "Sonarr" "Show.S01E01")
        "Sonarr" "Show.S01E01").History.Finished =
      (finishFinished sampleState "Sonarr" "Show.S01E01").History.Finished + 1 :=
  ⟨AList.lookup_erase _ _,
    (finishFinished_twice (finishFinished sampleState "Sonarr" "Show.S01E01")
      "Sonarr" "Show.S01E01").2.2 (AList.lookup_erase _ _)⟩

/-! ## Detection -/

/-- C5. On a history with no record for `name`, when the locator finds at least
one file, `HandleCompleted(name, app, path)` adds one record for `name`, with
status `EXTRACTING`, keeps every other record, and starts one extraction; a
further `HandleCompleted` for the same name on the result, with any helpers,
time, application and path, returns the state unchanged, so it changes nothing
in the history and starts no extraction. -/
theorem HandleCompleted_creates_once (h : Helpers) (now : Int) (u : Unpackerr)
    (name app path : String)
    (hnone : u.History.Map.lookup name = none)
    (hfiles : h.FindRarFiles (h.filepathJoin path name) ≠ []) :
    (HandleCompleted h now u name app path).History.Map.lookup name =
      some { App := app, Files := h.FindRarFiles (h.filepathJoin path name),
             Status := EXTRACTING, Updated := now } ∧
    (∀ other : String, other ≠ name →
      (HandleCompleted h now u name app path).History.Map.lookup other =
        u.History.Map.lookup other) ∧
    (HandleCompleted h now u name app path).History.Map.keys = name :: u.History.Map.keys ∧
    (HandleCompleted h now u name app path).History.Finished = u.History.Finished ∧
    (HandleCompleted h now u name app path).Extracting =
      u.Extracting ++ [(name, h.filepathJoin path name,
        h.FindRarFiles (h.filepathJoin path name))] ∧
    (∀ (h2 : Helpers) (now2 : Int) (app2 path2 : String),
      HandleCompleted h2 now2 (HandleCompleted h now u name app path) name app2 path2 =
        HandleCompleted h now u name app path) := by
  have hex : historyExists u name = false := by simp [historyExists, hnone]
  have hlen : (h.FindRarFiles (h.filepathJoin path name)).length > 0 :=
    List.length_pos.mpr hfiles
  have hmem : name ∉ u.History.Map := AList.lookup_eq_none.mp hnone
  have hrun : HandleCompleted h now u name app path =
      extractFiles (CreateStatus now u name (h.filepathJoin path name) app
        (h.FindRarFiles (h.filepathJoin path name))) name (h.filepathJoin path name)
        (h.FindRarFiles (h.filepathJoin path name)) := by
    simp [HandleCompleted, hex, hlen]
  rw [hrun]
  refine ⟨?_, ?_, ?_, rfl, rfl, ?_⟩
  · simp [extractFiles, CreateStatus, AList.lookup_insert]
  · intro other hne
    simp [extractFiles, CreateStatus, AList.lookup_insert_ne hne]
  · simp only [extractFiles, CreateStatus, AList.keys_insert]
    rw [List.erase_of_not_mem (AList.mem_keys.mp.mt hmem)]
  · intro h2 now2 app2 path2
    simp [HandleCompleted, historyExists, extractFiles, CreateStatus, AList.lookup_insert]

/-- Detection at work: the sample state without its record, and a locator that
finds one archive. -/
theorem HandleCompleted_creates_once_witness :
    ({ sampleState with History := { Map := ∅, Finished := 0 } } : Unpackerr).History.Map.lookup
        "Show.S01E01" = none ∧
    (HandleCompleted sampleHelpers 5 { sampleState with History := { Map := ∅, Finished := 0 } }
        "Show.S01E01" "Sonarr" "/tv").History.Map.keys = ["Show.S01E01"] :=
  ⟨rfl,
    (HandleCompleted_creates_once sampleHelpers 5
      { sampleState with History := { Map := ∅, Finished := 0 } }
      "Show.S01E01" "Sonarr" "/tv" rfl (by simp [sampleHelpers])).2.2.1⟩

/-- C6. A queue item whose protocol is neither "torrent" nor empty is inert.
(a) In the detection pass it starts no `HandleCompleted`, whatever its status:
its loop body starts nothing, and the calls started for a cached list that holds
it are the calls started for the list without it. (b) When the lookup of a
handler returns it, the handler returns the state it was given: history and
trace of deletes unchanged, whatever the record's status and age. -/
theorem non_torrent_inert (q : QueueItem) (hq : q.Protocol ≠ torrent) (hq2 : q.Protocol ≠ "") :
    (∀ cfg : Config, checkSonarrItem cfg q = none ∧ checkRadarrItem cfg q = none) ∧
    (∀ (u : Unpackerr) (before after : List QueueItem),
      CheckSonarrQueue { u with SonarrQ := before ++ q :: after } =
        CheckSonarrQueue { u with SonarrQ := before ++ after } ∧
      CheckRadarrQueue { u with RadarrQ := before ++ q :: after } =
        CheckRadarrQueue { u with RadarrQ := before ++ after }) ∧
    (∀ (h : Helpers) (now : Int) (u : Unpackerr) (data : Extracts) (name : String),
      (h.getSonarQitem u.SonarrQ name = q → handleSonarr h now u data name = u) ∧
      (h.getRadarQitem u.RadarrQ name = q → handleRadarr h now u data name = u)) := by
  refine ⟨?_, ?_, ?_⟩
  · intro cfg
    simp [checkSonarrItem, checkRadarrItem, hq]
  · intro u before after
    simp [CheckSonarrQueue, CheckRadarrQueue, checkSonarrItem, checkRadarrItem,
      List.filterMap_append, List.filterMap_cons, hq]
  · intro h now u data name
    rw [handleSonarr_eq_handled, handleRadarr_eq_handled]
    constructor <;> intro hitem <;> simp [handled, hitem, hq, hq2]

/-- An inert item at work: a completed usenet download cached between two
copies of the sample torrent starts no call, and a usenet entry with empty
status returned by the lookup blocks the handler of an old `IMPORTED` record. -/
theorem non_torrent_inert_witness :
    CheckSonarrQueue { sampleState with SonarrQ := [sampleItem] ++ usenetItem :: [sampleItem] } =
      CheckSonarrQueue { sampleState with SonarrQ := [sampleItem] ++ [sampleItem] } ∧
    handleSonarr sampleUsenetHelpers 7200000000000 sampleState
      { sampleRecord with Status := IMPORTED } "Show.S01E01" = sampleState :=
  ⟨((non_torrent_inert usenetItem (by decide) (by decide)).2.1 sampleState
      [sampleItem] [sampleItem]).1,
    ((non_torrent_inert usenetIdle (by decide) (by decide)).2.2 sampleUsenetHelpers
      7200000000000 sampleState { sampleRecord with Status := IMPORTED } "Show.S01E01").1 rfl⟩

/-! ## The advancement pass -/

theorem ExtractStatus.le_iff_rank (a b : ExtractStatus) : a ≤ b ↔ a.rank ≤ b.rank :=
  Iff.rfl

theorem ExtractStatus.lt_iff_rank (a b : ExtractStatus) : a < b ↔ a.rank < b.rank :=
  Iff.rfl

/-- The job started for a map entry works on the entry's name. -/
theorem checkEntry_name {deleteDelay now : Int} {name : String} {data : Extracts} {j : Job}
    (hj : checkEntry deleteDelay now name data = some j) : j.name = name := by
  unfold checkEntry at hj
  split_ifs at hj <;> simp at hj <;> subst hj <;> rfl

/-- The jobs started by `CheckExtractDone` are the ones its `switch` starts for
the records of the map. -/
theorem mem_CheckExtractDone {now : Int} {u : Unpackerr} {j : Job} :
    j ∈ CheckExtractDone now u ↔
      ∃ data, u.History.Map.lookup j.name = some data ∧
        checkEntry u.DeleteDelay now j.name data = some j := by
  unfold CheckExtractDone
  rw [List.mem_filterMap]
  constructor
  · rintro ⟨⟨name, data⟩, hmem, hj⟩
    have hn : j.name = name := checkEntry_name hj
    subst hn
    exact ⟨data, AList.mem_lookup_iff.mpr hmem, hj⟩
  · rintro ⟨data, hl, hj⟩
    exact ⟨⟨j.name, data⟩, AList.mem_lookup_iff.mp hl, hj⟩

/-- The names of the jobs started for a list of entries form a sublist of the
keys of the entries. -/
theorem job_names_sublist (deleteDelay now : Int)
    (l : List (Sigma (fun _ : String => Extracts))) :
    ((l.filterMap (fun e => checkEntry deleteDelay now e.1 e.2)).map Job.name).Sublist
      l.keys := by
  induction l with
  | nil => simp
  | cons e rest ih =>
    cases hj : checkEntry deleteDelay now e.1 e.2 with
    | none =>
      simp only [List.filterMap_cons, hj, List.keys_cons]
      exact ih.trans (List.sublist_cons_self _ _)
    | some j =>
      simp only [List.filterMap_cons, hj, List.map_cons, List.keys_cons, checkEntry_name hj]
      exact ih.cons₂ _

/-- A pass starts at most one job per name. -/
theorem CheckExtractDone_names_nodup (now : Int) (u : Unpackerr) :
    ((CheckExtractDone now u).map Job.name).Nodup :=
  (job_names_sublist u.DeleteDelay now u.History.Map.entries).nodup u.History.Map.keys_nodup

/-- The record stored under the name after a handler has run. -/
theorem handled_lookup (now : Int) (u : Unpackerr) (item : QueueItem) (data : Extracts)
    (name : String) :
    (handled now u item data name).History.Map.lookup name =
      if item.Status ≠ "" then u.History.Map.lookup name
      else if item.Protocol ≠ torrent ∧ item.Protocol ≠ "" then u.History.Map.lookup name
      else if data.Status ≠ IMPORTED then some { data with Status := IMPORTED, Updated := now }
      else if now - data.Updated ≥ u.DeleteDelay then
        some { data with Status := DELETED, Updated := now }
      else u.History.Map.lookup name := by
  unfold handled
  split_ifs <;> simp [AList.lookup_insert]

/-- A handler leaves the records of the other names alone. -/
theorem handled_lookup_of_ne (now : Int) (u : Unpackerr) (item : QueueItem) (data : Extracts)
    {name other : String} (hne : other ≠ name) :
    (handled now u item data name).History.Map.lookup other = u.History.Map.lookup other := by
  unfold handled
  split_ifs <;> simp [AList.lookup_insert_ne hne]

/-- No job touches the queues or the delete delay. -/
theorem Job.run_frame (h : Helpers) (now : Int) (u : Unpackerr) (j : Job) :
    (j.run h now u).SonarrQ = u.SonarrQ ∧ (j.run h now u).RadarrQ = u.RadarrQ ∧
      (j.run h now u).DeleteDelay = u.DeleteDelay := by
  cases j with
  | finishFinished app name => exact ⟨rfl, rfl, rfl⟩
  | handleSonarr data name =>
    simp only [Job.run, handleSonarr_eq_handled, handled]
    split_ifs <;> exact ⟨rfl, rfl, rfl⟩
  | handleRadarr data name =>
    simp only [Job.run, handleRadarr_eq_handled, handled]
    split_ifs <;> exact ⟨rfl, rfl, rfl⟩

/-- A job leaves the records of the other names alone. -/
theorem Job.run_lookup_of_ne (h : Helpers) (now : Int) (u : Unpackerr) (j : Job)
    {other : String} (hne : other ≠ j.name) :
    (j.run h now u).History.Map.lookup other = u.History.Map.lookup other := by
  cases j with
  | finishFinished app name => exact AList.lookup_erase_ne hne
  | handleSonarr data name =>
    simp only [Job.run, handleSonarr_eq_handled]
    exact handled_lookup_of_ne now u _ data hne
  | handleRadarr data name =>
    simp only [Job.run, handleRadarr_eq_handled]
    exact handled_lookup_of_ne now u _ data hne

/-- What a job stores under its own name depends on the state only through the
queues, the delete delay and the record stored under that name. -/
theorem Job.run_lookup_congr (h : Helpers) (now : Int) (j : Job) (u v : Unpackerr)
    (hS : v.SonarrQ = u.SonarrQ) (hR : v.RadarrQ = u.RadarrQ)
    (hD : v.DeleteDelay = u.DeleteDelay)
    (hl : v.History.Map.lookup j.name = u.History.Map.lookup j.name) :
    (j.run h now v).History.Map.lookup j.name = (j.run h now u).History.Map.lookup j.name := by
  cases j with
  | finishFinished app name =>
    simp only [Job.run, Job.name, Unpacker.finishFinished, AList.lookup_erase]
  | handleSonarr data name =>
    simp only [Job.name] at hl
    simp only [Job.run, Job.name, handleSonarr_eq_handled, handled_lookup, hS, hD, hl]
  | handleRadarr data name =>
    simp only [Job.name] at hl
    simp only [Job.run, Job.name, handleRadarr_eq_handled, handled_lookup, hR, hD, hl]

/-- Jobs for other names leave the record of a name alone. -/
theorem runTasks_lookup_of_not_mem (h : Helpers) (now : Int) (name : String) :
    ∀ (ts : List Job) (u : Unpackerr), name ∉ ts.map Job.name →
      (runTasks h now ts u).History.Map.lookup name = u.History.Map.lookup name := by
  intro ts
  induction ts with
  | nil => intro u _; rfl
  | cons a rest ih =>
    intro u hname
    have hne : name ≠ a.name := fun heq => hname (by simp [heq])
    have hrest : name ∉ rest.map Job.name := fun hm => hname (by simp at hm ⊢; exact Or.inr hm)
    show (runTasks h now rest (a.run h now u)).History.Map.lookup name = _
    rw [ih (a.run h now u) hrest, Job.run_lookup_of_ne h now u a hne]

/-- When the jobs of a list have distinct names, the record of a job's name after
the whole list has run is the one that job alone leaves: the other jobs do not
touch it, before or after. -/
theorem runTasks_lookup_of_mem (h : Helpers) (now : Int) (j : Job) (u : Unpackerr) :
    ∀ (ts : List Job) (v : Unpackerr), (ts.map Job.name).Nodup → j ∈ ts →
      v.SonarrQ = u.SonarrQ → v.RadarrQ = u.RadarrQ → v.DeleteDelay = u.DeleteDelay →
      v.History.Map.lookup j.name = u.History.Map.lookup j.name →
      (runTasks h now ts v).History.Map.lookup j.name =
        (j.run h now u).History.Map.lookup j.name := by
  intro ts
  induction ts with
  | nil => intro v _ hj; exact absurd hj (List.not_mem_nil j)
  | cons a rest ih =>
    intro v hnd hj hS hR hD hl
    rw [List.map_cons, List.nodup_cons] at hnd
    show (runTasks h now rest (a.run h now v)).History.Map.lookup j.name = _
    by_cases hja : j = a
    · subst hja
      rw [runTasks_lookup_of_not_mem h now j.name rest _ hnd.1]
      exact Job.run_lookup_congr h now j u v hS hR hD hl
    · have hjr : j ∈ rest := (List.mem_cons.mp hj).resolve_left hja
      have hne : j.name ≠ a.name := fun heq =>
        hnd.1 (heq ▸ List.mem_map_of_mem Job.name hjr)
      obtain ⟨fS, fR, fD⟩ := Job.run_frame h now v a
      exact ih (a.run h now v) hnd.2 hjr (fS.trans hS) (fR.trans hR) (fD.trans hD)
        ((Job.run_lookup_of_ne h now v a hne).trans hl)

/-- The record under a name after a pass, whatever the order in which the jobs
of the pass run: the record is untouched when the pass started no job for it,
and otherwise it is what its own job leaves when run on the state the pass
started from. -/
theorem pass_lookup (h : Helpers) (now : Int) (u : Unpackerr) (ts : List Job)
    (hts : ts.Perm (CheckExtractDone now u)) (name : String) (data : Extracts)
    (hd : u.History.Map.lookup name = some data) :
    (runTasks h now ts u).History.Map.lookup name =
      match checkEntry u.DeleteDelay now name data with
      | none => some data
      | some j => (j.run h now u).History.Map.lookup name := by
  have hnd : (ts.map Job.name).Nodup :=
    (hts.map Job.name).nodup_iff.mpr (CheckExtractDone_names_nodup now u)
  cases hc : checkEntry u.DeleteDelay now name data with
  | none =>
    have hnot : name ∉ ts.map Job.name := by
      intro hm
      obtain ⟨j, hj, hjn⟩ := List.mem_map.mp hm
      obtain ⟨data2, hl2, hc2⟩ := mem_CheckExtractDone.mp (hts.mem_iff.mp hj)
      rw [hjn, hd] at hl2
      rw [hjn, ← Option.some.inj hl2, hc] at hc2
      exact Option.noConfusion hc2
    simp only [runTasks_lookup_of_not_mem h now name ts u hnot, hd]
  | some j =>
    have hn : j.name = name := checkEntry_name hc
    subst hn
    have hj : j ∈ ts := hts.mem_iff.mpr (mem_CheckExtractDone.mpr ⟨data, hd, hc⟩)
    simp only [runTasks_lookup_of_mem h now j u ts u hnd hj rfl rfl rfl rfl]

/-- A record that is in the history after a pass was in it before the pass. -/
theorem pass_lookup_none (h : Helpers) (now : Int) (u : Unpackerr) (ts : List Job)
    (hts : ts.Perm (CheckExtractDone now u)) (name : String)
    (hd : u.History.Map.lookup name = none) :
    (runTasks h now ts u).History.Map.lookup name = none := by
  have hnot : name ∉ ts.map Job.name := by
    intro hm
    obtain ⟨j, hj, hjn⟩ := List.mem_map.mp hm
    obtain ⟨data2, hl2, _⟩ := mem_CheckExtractDone.mp (hts.mem_iff.mp hj)
    rw [hjn, hd] at hl2
    exact Option.noConfusion hl2
  rw [runTasks_lookup_of_not_mem h now name ts u hnot, hd]

/-- A status that the `switch` lets through to a handler is at most `IMPORTED`. -/
theorem status_le_imported (s : ExtractStatus) (hr : ¬ (s < EXTRACTED ∨ s > IMPORTED)) :
    s ≤ IMPORTED := by
  revert hr
  cases s <;> decide

/-- The record a handler leaves under the name has a status at least the status
of the record it was given, when that record is stored under the name and its
status is at most `IMPORTED`. -/
theorem handled_status_le (now : Int) (u : Unpackerr) (item : QueueItem) (data r : Extracts)
    (name : String) (hd : u.History.Map.lookup name = some data) (hs : data.Status ≤ IMPORTED)
    (hr : (handled now u item data name).History.Map.lookup name = some r) :
    data.Status ≤ r.Status := by
  rw [handled_lookup, hd] at hr
  split_ifs at hr with h1 h2 h3 h4
  · rw [← Option.some.inj hr]; exact Nat.le_refl _
  · rw [← Option.some.inj hr]; exact Nat.le_refl _
  · rw [← Option.some.inj hr]; exact hs
  · rw [← Option.some.inj hr, not_not.mp h3]; show IMPORTED ≤ DELETED; decide
  · rw [← Option.some.inj hr]; exact Nat.le_refl _

/-- A handler never removes the record stored under the name. -/
theorem handled_lookup_isSome (now : Int) (u : Unpackerr) (item : QueueItem) (data : Extracts)
    (name : String) (hd : u.History.Map.lookup name = some data) :
    ∃ r, (handled now u item data name).History.Map.lookup name = some r := by
  rw [handled_lookup, hd]
  split_ifs <;> exact ⟨_, rfl⟩

/-- A product that fits in 64 bits is not changed by the wrap. -/
theorem wrapInt64_of_fits (x : Int) (hlo : -9223372036854775808 ≤ x)
    (hhi : x < 9223372036854775808) : wrapInt64 x = x := by
  unfold wrapInt64
  omega

/-- The wrap of a non-negative product is at most the product. -/
theorem wrapInt64_le_of_nonneg (x : Int) (hx : 0 ≤ x) : wrapInt64 x ≤ x := by
  unfold wrapInt64
  omega

/-- The records a pass removes, with the threshold as the code computes it: in
one advancement pass (`CheckExtractDone`, then the jobs it started, each run
once, in any order), a record of the history is removed exactly when its status
is at least `DELETED` and `now - updated` is at least the 64-bit value of
`DeleteDelay*2`; any other record still has a record under its name. -/
theorem pass_removes_iff (h : Helpers) (now : Int) (u : Unpackerr) (ts : List Job)
    (hts : ts.Perm (CheckExtractDone now u)) (name : String) (data : Extracts)
    (hd : u.History.Map.lookup name = some data) :
    ((runTasks h now ts u).History.Map.lookup name = none ↔
      (data.Status ≥ DELETED ∧ now - data.Updated ≥ wrapInt64 (u.DeleteDelay * 2))) ∧
    (¬ (data.Status ≥ DELETED ∧ now - data.Updated ≥ wrapInt64 (u.DeleteDelay * 2)) →
      ∃ r, (runTasks h now ts u).History.Map.lookup name = some r) := by
  rw [pass_lookup h now u ts hts name data hd]
  unfold checkEntry
  by_cases hc : data.Status ≥ DELETED ∧ now - data.Updated ≥ wrapInt64 (u.DeleteDelay * 2)
  · rw [if_pos hc]
    refine ⟨⟨fun _ => hc, fun _ => AList.lookup_erase name u.History.Map⟩, fun hn => absurd hc hn⟩
  · rw [if_neg hc]
    have key : ∃ r, (match (if data.Status < EXTRACTED ∨ data.Status > IMPORTED then none
          else if data.App = "Sonarr" then some (Job.handleSonarr data name)
          else if data.App = "Radarr" then some (Job.handleRadarr data name)
          else none : Option Job) with
        | none => some data
        | some j => (j.run h now u).History.Map.lookup name) = some r := by
      split_ifs
      · exact ⟨data, rfl⟩
      · simp only [Job.run, handleSonarr_eq_handled]
        exact handled_lookup_isSome now u _ data name hd
      · simp only [Job.run, handleRadarr_eq_handled]
        exact handled_lookup_isSome now u _ data name hd
      · exact ⟨data, rfl⟩
    obtain ⟨r, hr⟩ := key
    refine ⟨?_, fun _ => ⟨r, hr⟩⟩
    rw [hr]
    simp only [hc, iff_false]
    exact Option.noConfusion

/-- The reaping condition for a delete delay whose double fits in 64 bits
(`-2^62 ≤ DeleteDelay < 2^62`, in nanoseconds): a record is removed in a pass
exactly when its status is at least `DELETED` and
`now - updated ≥ 2 * deleteDelay`. -/
theorem pass_reaps_iff_of_fits (h : Helpers) (now : Int) (u : Unpackerr) (ts : List Job)
    (hts : ts.Perm (CheckExtractDone now u)) (name : String) (data : Extracts)
    (hd : u.History.Map.lookup name = some data)
    (hlo : -4611686018427387904 ≤ u.DeleteDelay) (hhi : u.DeleteDelay < 4611686018427387904) :
    ((runTasks h now ts u).History.Map.lookup name = none ↔
      (data.Status ≥ DELETED ∧ now - data.Updated ≥ 2 * u.DeleteDelay)) ∧
    (¬ (data.Status ≥ DELETED ∧ now - data.Updated ≥ 2 * u.DeleteDelay) →
      ∃ r, (runTasks h now ts u).History.Map.lookup name = some r) := by
  have hw : wrapInt64 (u.DeleteDelay * 2) = 2 * u.DeleteDelay := by
    rw [wrapInt64_of_fits _ (by omega) (by omega)]
    omega
  have hgen := pass_removes_iff h now u ts hts name data hd
  rw [hw] at hgen
  exact hgen

/-- C2. With a delete delay of `2^62` ns the 64-bit product `DeleteDelay*2` is
`-2^63`. The record of `sampleLongDelay` is `DELETED` since time 0; at time 5,
when `now - updated = 5` is far below `2 * deleteDelay = 2^63`, the first case
of the `switch` holds all the same, `CheckExtractDone` starts `finishFinished`
for the record, and after the pass the record is gone. -/
theorem pass_reaps_early_when_product_wraps :
    sampleLongDelay.DeleteDelay = 4611686018427387904 ∧
    sampleLongDelay.History.Map.lookup "Show.S01E01" = some sampleRecord ∧
    sampleRecord.Status ≥ DELETED ∧
    ¬ (5 - sampleRecord.Updated ≥ 2 * sampleLongDelay.DeleteDelay) ∧
    wrapInt64 (sampleLongDelay.DeleteDelay * 2) = -9223372036854775808 ∧
    (advance sampleHelpers 5 sampleLongDelay).History.Map.lookup "Show.S01E01" = none := by
  decide

/-- C3. After one advancement pass (`CheckExtractDone`, then the jobs it started,
each run once, in any order; the record a handler is given is the one stored
under its name when it runs, since no other job of the pass touches that name),
every record that is in the history was in it before the pass, with a status
that is less than or equal to its status after the pass. -/
theorem pass_status_monotone (h : Helpers) (now : Int) (u : Unpackerr) (ts : List Job)
    (hts : ts.Perm (CheckExtractDone now u)) (name : String) (r : Extracts)
    (hr : (runTasks h now ts u).History.Map.lookup name = some r) :
    ∃ data, u.History.Map.lookup name = some data ∧ data.Status ≤ r.Status := by
  cases hd : u.History.Map.lookup name with
  | none =>
    rw [pass_lookup_none h now u ts hts name hd] at hr
    exact Option.noConfusion hr
  | some data =>
    refine ⟨data, rfl, ?_⟩
    rw [pass_lookup h now u ts hts name data hd] at hr
    unfold checkEntry at hr
    split_ifs at hr with h1 h2 h3 h4
    · simp only [Job.run, finishFinished, AList.lookup_erase] at hr
      exact Option.noConfusion hr
    · rw [← Option.some.inj hr]; exact Nat.le_refl _
    · simp only [Job.run, handleSonarr_eq_handled] at hr
      exact handled_status_le now u _ data r name hd (status_le_imported _ h2) hr
    · simp only [Job.run, handleRadarr_eq_handled] at hr
      exact handled_status_le now u _ data r name hd (status_le_imported _ h2) hr
    · rw [← Option.some.inj hr]; exact Nat.le_refl _

/-- Monotonicity at work: the `EXTRACTED` record of `sampleTracked`, absent from
the live queue, is `IMPORTED` after a pass at time 5. -/
theorem pass_status_monotone_witness :
    (advance sampleHelpers 5 sampleTracked).History.Map.lookup "Show.S01E01" =
      some (Extracts.mk "Sonarr" ["a.rar"] IMPORTED 5) ∧
    ∃ data, sampleTracked.History.Map.lookup "Show.S01E01" = some data ∧
      data.Status ≤ (Extracts.mk "Sonarr" ["a.rar"] IMPORTED 5).Status :=
  ⟨by decide, pass_status_monotone sampleHelpers 5 sampleTracked
    (CheckExtractDone 5 sampleTracked) (List.Perm.refl _) "Show.S01E01"
    (Extracts.mk "Sonarr" ["a.rar"] IMPORTED 5) (by decide)⟩

/-! ## Stale copies, frames and the two handlers -/

/-- Counterexample to C11: the history holds the sample record with status
`DELETED`, the copy handed to the handler still says `IMPORTED` (updated at 0),
the delete delay is one hour and the lookup finds nothing. Run at two hours,
`handleSonarr` calls `deleteFiles` on the files and overwrites the stored record
with `updated` set to two hours: the history is not unchanged and a delete is
issued. -/
theorem stale_copy_is_acted_on :
    sampleState.History.Map.lookup "Show.S01E01" = some sampleRecord ∧
    sampleRecord.Status ≠ sampleImported.Status ∧
    (handleSonarr sampleHelpers 7200000000000 sampleState sampleImported
        "Show.S01E01").History.Map.lookup "Show.S01E01" =
      some (Extracts.mk "Sonarr" ["a.rar"] DELETED 7200000000000) ∧
    (handleSonarr sampleHelpers 7200000000000 sampleState sampleImported
        "Show.S01E01").History ≠ sampleState.History ∧
    (handleSonarr sampleHelpers 7200000000000 sampleState sampleImported
        "Show.S01E01").Deleted = sampleState.Deleted ++ [["a.rar"]] := by
  refine ⟨by decide, by decide, by decide, ?_, by decide⟩
  intro heq
  have hl := congrArg (fun hist : History => hist.Map.lookup "Show.S01E01") heq
  revert hl
  decide

/-- What a handler does with its copy once its lookup has returned a
non-blocking item, whatever is stored under the name. -/
theorem handled_acts_on_copy (now : Int) (u : Unpackerr) (item : QueueItem) (data : Extracts)
    (name : String) (hstatus : item.Status = "")
    (hproto : item.Protocol = torrent ∨ item.Protocol = "") :
    (data.Status = IMPORTED ∧ now - data.Updated < u.DeleteDelay →
      handled now u item data name = u) ∧
    (data.Status ≠ IMPORTED →
      (handled now u item data name).History.Map.lookup name =
          some { data with Status := IMPORTED, Updated := now } ∧
        (handled now u item data name).Deleted = u.Deleted) ∧
    (data.Status = IMPORTED ∧ now - data.Updated ≥ u.DeleteDelay →
      (handled now u item data name).History.Map.lookup name =
          some { data with Status := DELETED, Updated := now } ∧
        (handled now u item data name).Deleted = u.Deleted ++ [data.Files]) := by
  have h3 : ¬ (item.Protocol ≠ torrent ∧ item.Protocol ≠ "") := by
    rintro ⟨ha, hb⟩
    exact hproto.elim ha hb
  refine ⟨?_, ?_, ?_⟩
  · rintro ⟨hs, hlt⟩
    have hge : ¬ (now - data.Updated ≥ u.DeleteDelay) := not_le.mpr hlt
    simp [handled, hstatus, h3, hs, hge]
  · intro hs
    simp [handled, hstatus, h3, hs, AList.lookup_insert]
  · rintro ⟨hs, hge⟩
    simp [handled, hstatus, h3, hs, hge, AList.lookup_insert]

/-- C11, amended. A handler does not read the record stored under the name: it
acts on the copy it was given. For `handleSonarr` when the Sonarr lookup returns
no blocking item, and for `handleRadarr` when the Radarr lookup returns no
blocking item, whatever is stored under the name: if the copy is `IMPORTED` and
younger than the delete delay the state is returned unchanged; if the copy is
not `IMPORTED` the copy is stored with status `IMPORTED` and `updated = now`,
with no delete; if the copy is `IMPORTED` and as old as the delete delay,
`deleteFiles` is called on its files and the copy is stored with status
`DELETED` and `updated = now`. -/
theorem handler_acts_on_copy (h : Helpers) (now : Int) (u : Unpackerr) (data : Extracts)
    (name : String) :
    ((h.getSonarQitem u.SonarrQ name).Status = "" →
      ((h.getSonarQitem u.SonarrQ name).Protocol = torrent ∨
        (h.getSonarQitem u.SonarrQ name).Protocol = "") →
      (data.Status = IMPORTED ∧ now - data.Updated < u.DeleteDelay →
        handleSonarr h now u data name = u) ∧
      (data.Status ≠ IMPORTED →
        (handleSonarr h now u data name).History.Map.lookup name =
            some { data with Status := IMPORTED, Updated := now } ∧
          (handleSonarr h now u data name).Deleted = u.Deleted) ∧
      (data.Status = IMPORTED ∧ now - data.Updated ≥ u.DeleteDelay →
        (handleSonarr h now u data name).History.Map.lookup name =
            some { data with Status := DELETED, Updated := now } ∧
          (handleSonarr h now u data name).Deleted = u.Deleted ++ [data.Files])) ∧
    ((h.getRadarQitem u.RadarrQ name).Status = "" →
      ((h.getRadarQitem u.RadarrQ name).Protocol = torrent ∨
        (h.getRadarQitem u.RadarrQ name).Protocol = "") →
      (data.Status = IMPORTED ∧ now - data.Updated < u.DeleteDelay →
        handleRadarr h now u data name = u) ∧
      (data.Status ≠ IMPORTED →
        (handleRadarr h now u data name).History.Map.lookup name =
            some { data with Status := IMPORTED, Updated := now } ∧
          (handleRadarr h now u data name).Deleted = u.Deleted) ∧
      (data.Status = IMPORTED ∧ now - data.Updated ≥ u.DeleteDelay →
        (handleRadarr h now u data name).History.Map.lookup name =
            some { data with Status := DELETED, Updated := now } ∧
          (handleRadarr h now u data name).Deleted = u.Deleted ++ [data.Files])) := by
  rw [handleSonarr_eq_handled, handleRadarr_eq_handled]
  exact ⟨fun hstatus hproto => handled_acts_on_copy now u _ data name hstatus hproto,
    fun hstatus hproto => handled_acts_on_copy now u _ data name hstatus hproto⟩

/-- The amended C11 on the sample state, where the stored record is `DELETED`
and the copy is `IMPORTED`. The Sonarr lookup finds nothing and the Radarr
lookup is busy: at half an hour `handleSonarr` leaves everything as it is, and
at two hours it deletes the files of the copy and stores the copy as `DELETED`,
whatever the Radarr lookup returns. -/
theorem handler_acts_on_copy_witness :
    (sampleSonarrOnlyHelpers.getRadarQitem sampleState.RadarrQ "Show.S01E01").Status ≠ "" ∧
    handleSonarr sampleSonarrOnlyHelpers 1800000000000 sampleState sampleImported
      "Show.S01E01" = sampleState ∧
    (handleSonarr sampleSonarrOnlyHelpers 7200000000000 sampleState sampleImported
        "Show.S01E01").History.Map.lookup "Show.S01E01" =
      some (Extracts.mk "Sonarr" ["a.rar"] DELETED 7200000000000) ∧
    (handleSonarr sampleSonarrOnlyHelpers 7200000000000 sampleState sampleImported
        "Show.S01E01").Deleted = sampleState.Deleted ++ [["a.rar"]] :=
  ⟨by decide,
    ((handler_acts_on_copy sampleSonarrOnlyHelpers 1800000000000 sampleState sampleImported
      "Show.S01E01").1 rfl (Or.inr rfl)).1 ⟨rfl, by decide⟩,
    ((handler_acts_on_copy sampleSonarrOnlyHelpers 7200000000000 sampleState sampleImported
      "Show.S01E01").1 rfl (Or.inr rfl)).2.2 ⟨rfl, by decide⟩⟩

/-- The names in the history after a handler has run. -/
theorem handled_mem (now : Int) (u : Unpackerr) (item : QueueItem) (data : Extracts)
    (name other : String) :
    other ∈ (handled now u item data name).History.Map →
      other = name ∨ other ∈ u.History.Map := by
  unfold handled
  split_ifs <;> intro hm
  · exact Or.inr hm
  · exact Or.inr hm
  · exact (AList.mem_insert _).mp hm
  · exact (AList.mem_insert _).mp hm
  · exact Or.inr hm

/-- A handler removes no name from the history. -/
theorem mem_handled (now : Int) (u : Unpackerr) (item : QueueItem) (data : Extracts)
    (name other : String) (hm : other ∈ u.History.Map) :
    other ∈ (handled now u item data name).History.Map := by
  unfold handled
  split_ifs <;> first | exact hm | exact (AList.mem_insert _).mpr (Or.inr hm)

/-- A name is in the history exactly when a record is stored under it. -/
theorem mem_iff_lookup_ne_none (m : AList (fun _ : String => Extracts)) (name : String) :
    name ∈ m ↔ m.lookup name ≠ none := by
  rw [Ne, AList.lookup_eq_none, not_not]

/-- Counterexample to C12: the record "Show.S01E01" has been reaped and the map
is empty; `handleSonarr`, run at time 5 with a copy of the record taken when it
was `EXTRACTED` and a lookup that finds nothing, stores the copy under the name
again, so a name is in the history that was not in it before the call. -/
theorem handler_restores_reaped_name :
    sampleReaped.History.Map.lookup "Show.S01E01" = none ∧
    sampleReaped.History.Map.keys = [] ∧
    (handleSonarr sampleHelpers 5 sampleReaped sampleExtracted
        "Show.S01E01").History.Map.lookup "Show.S01E01" =
      some (Extracts.mk "Sonarr" ["a.rar"] IMPORTED 5) ∧
    (handleSonarr sampleHelpers 5 sampleReaped sampleExtracted
        "Show.S01E01").History.Map.keys = ["Show.S01E01"] := by
  decide

/-- C12, amended. After `handleSonarr` / `handleRadarr` for a name, every name
in the history either was in it before or is that name, and no name is lost; so
when the name is in the history before the call the names are the same. A
handler whose copy is not `IMPORTED` and whose lookup returns no blocking item
stores the copy under the name even when the name is not in the history, and so
does a handler whose copy is `IMPORTED` and as old as the delete delay. In an
advancement pass (the jobs of `CheckExtractDone`, in any order) handlers are only
started for names of the history, and every name in the history after the pass
was in it before. -/
theorem handler_names (h : Helpers) (now : Int) (u : Unpackerr) (data : Extracts)
    (name : String) :
    (∀ other : String,
      (other ∈ (handleSonarr h now u data name).History.Map →
        other = name ∨ other ∈ u.History.Map) ∧
      (other ∈ (handleRadarr h now u data name).History.Map →
        other = name ∨ other ∈ u.History.Map) ∧
      (other ∈ u.History.Map →
        other ∈ (handleSonarr h now u data name).History.Map ∧
        other ∈ (handleRadarr h now u data name).History.Map)) ∧
    (name ∈ u.History.Map → ∀ other : String,
      (other ∈ (handleSonarr h now u data name).History.Map ↔ other ∈ u.History.Map) ∧
      (other ∈ (handleRadarr h now u data name).History.Map ↔ other ∈ u.History.Map)) ∧
    (data.Status ≠ IMPORTED →
      ((h.getSonarQitem u.SonarrQ name).Status = "" →
        ((h.getSonarQitem u.SonarrQ name).Protocol = torrent ∨
          (h.getSonarQitem u.SonarrQ name).Protocol = "") →
        name ∈ (handleSonarr h now u data name).History.Map) ∧
      ((h.getRadarQitem u.RadarrQ name).Status = "" →
        ((h.getRadarQitem u.RadarrQ name).Protocol = torrent ∨
          (h.getRadarQitem u.RadarrQ name).Protocol = "") →
        name ∈ (handleRadarr h now u data name).History.Map)) ∧
    (∀ ts : List Job, ts.Perm (CheckExtractDone now u) →
      (∀ j ∈ ts, j.name ∈ u.History.Map) ∧
      (∀ other : String, other ∈ (runTasks h now ts u).History.Map →
        other ∈ u.History.Map)) ∧
    (data.Status = IMPORTED → now - data.Updated ≥ u.DeleteDelay →
      ((h.getSonarQitem u.SonarrQ name).Status = "" →
        ((h.getSonarQitem u.SonarrQ name).Protocol = torrent ∨
          (h.getSonarQitem u.SonarrQ name).Protocol = "") →
        name ∈ (handleSonarr h now u data name).History.Map) ∧
      ((h.getRadarQitem u.RadarrQ name).Status = "" →
        ((h.getRadarQitem u.RadarrQ name).Protocol = torrent ∨
          (h.getRadarQitem u.RadarrQ name).Protocol = "") →
        name ∈ (handleRadarr h now u data name).History.Map)) := by
  rw [handleSonarr_eq_handled, handleRadarr_eq_handled]
  refine ⟨?_, ?_, ?_, ?_, ?_⟩
  · intro other
    exact ⟨handled_mem now u _ data name other, handled_mem now u _ data name other,
      fun hm => ⟨mem_handled now u _ data name other hm, mem_handled now u _ data name other hm⟩⟩
  · intro hname other
    constructor
    · constructor
      · intro hm
        rcases handled_mem now u _ data name other hm with heq | hold
        · exact heq ▸ hname
        · exact hold
      · exact mem_handled now u _ data name other
    · constructor
      · intro hm
        rcases handled_mem now u _ data name other hm with heq | hold
        · exact heq ▸ hname
        · exact hold
      · exact mem_handled now u _ data name other
  · intro hs
    constructor
    · intro h1 h2
      have h3 : ¬ ((h.getSonarQitem u.SonarrQ name).Protocol ≠ torrent ∧
          (h.getSonarQitem u.SonarrQ name).Protocol ≠ "") := by
        rintro ⟨ha, hb⟩
        exact h2.elim ha hb
      simp [handled, h1, h3, hs, AList.mem_insert]
    · intro h1 h2
      have h3 : ¬ ((h.getRadarQitem u.RadarrQ name).Protocol ≠ torrent ∧
          (h.getRadarQitem u.RadarrQ name).Protocol ≠ "") := by
        rintro ⟨ha, hb⟩
        exact h2.elim ha hb
      simp [handled, h1, h3, hs, AList.mem_insert]
  · intro ts hts
    constructor
    · intro j hj
      obtain ⟨d, hl, _⟩ := mem_CheckExtractDone.mp (hts.mem_iff.mp hj)
      rw [mem_iff_lookup_ne_none, hl]
      exact Option.noConfusion
    · intro other hm
      by_contra hnot
      have hnone : u.History.Map.lookup other = none := AList.lookup_eq_none.mpr hnot
      have hafter := pass_lookup_none h now u ts hts other hnone
      exact (AList.lookup_eq_none.mp hafter) hm
  · intro hs hge
    constructor
    · intro h1 h2
      have h3 : ¬ ((h.getSonarQitem u.SonarrQ name).Protocol ≠ torrent ∧
          (h.getSonarQitem u.SonarrQ name).Protocol ≠ "") := by
        rintro ⟨ha, hb⟩
        exact h2.elim ha hb
      simp [handled, h1, h3, hs, hge, AList.mem_insert]
    · intro h1 h2
      have h3 : ¬ ((h.getRadarQitem u.RadarrQ name).Protocol ≠ torrent ∧
          (h.getRadarQitem u.RadarrQ name).Protocol ≠ "") := by
        rintro ⟨ha, hb⟩
        exact h2.elim ha hb
      simp [handled, h1, h3, hs, hge, AList.mem_insert]

/-- The amended C12 on the sample state: the name is in the history, and after
the handler has stored the `IMPORTED` record the names are the same. -/
theorem handler_names_witness :
    "Show.S01E01" ∈ sampleTracked.History.Map ∧
    ∀ other : String,
      (other ∈ (handleSonarr sampleHelpers 5 sampleTracked sampleExtracted
          "Show.S01E01").History.Map ↔ other ∈ sampleTracked.History.Map) ∧
      (other ∈ (handleRadarr sampleHelpers 5 sampleTracked sampleExtracted
          "Show.S01E01").History.Map ↔ other ∈ sampleTracked.History.Map) :=
  ⟨by decide, (handler_names sampleHelpers 5 sampleTracked sampleExtracted
    "Show.S01E01").2.1 (by decide)⟩

/-- What a handler leaves when its copy is the stored record: the record under
the name keeps app and files, `updated` moves only with the status, and the
finished counter is untouched. -/
theorem handled_touches_status_only (now : Int) (u : Unpackerr) (item : QueueItem)
    (r : Extracts) (name : String) (hr : u.History.Map.lookup name = some r) :
    (∃ r2, (handled now u item r name).History.Map.lookup name = some r2 ∧
      r2.App = r.App ∧ r2.Files = r.Files ∧ (r2.Updated ≠ r.Updated → r2.Status ≠ r.Status)) ∧
    (handled now u item r name).History.Finished = u.History.Finished := by
  unfold handled
  split_ifs with h1 h2 h3 h4
  · exact ⟨⟨r, hr, rfl, rfl, fun hne => absurd rfl hne⟩, rfl⟩
  · exact ⟨⟨r, hr, rfl, rfl, fun hne => absurd rfl hne⟩, rfl⟩
  · exact ⟨⟨_, AList.lookup_insert _, rfl, rfl, fun _ hs => h3 hs.symm⟩, rfl⟩
  · refine ⟨⟨_, AList.lookup_insert _, rfl, rfl, fun _ hs => ?_⟩, rfl⟩
    have hs2 : DELETED = r.Status := hs
    rw [not_not.mp h3] at hs2
    exact absurd hs2 (by decide)
  · exact ⟨⟨r, hr, rfl, rfl, fun hne => absurd rfl hne⟩, rfl⟩

/-- C14. When `name` maps to the record `r` and a handler is run with the copy
`r`, whatever the lookup returns and whatever the time: the record under `name`
afterwards has the app and the files of `r`, and its `updated` differs from that
of `r` only if its status does; every other name maps to the record it mapped
to before; the finished counter is unchanged. -/
theorem handler_touches_status_only (h : Helpers) (now : Int) (u : Unpackerr)
    (r : Extracts) (name : String) (hr : u.History.Map.lookup name = some r) :
    ((∃ r2, (handleSonarr h now u r name).History.Map.lookup name = some r2 ∧
        r2.App = r.App ∧ r2.Files = r.Files ∧
        (r2.Updated ≠ r.Updated → r2.Status ≠ r.Status)) ∧
      (∀ other : String, other ≠ name →
        (handleSonarr h now u r name).History.Map.lookup other =
          u.History.Map.lookup other) ∧
      (handleSonarr h now u r name).History.Finished = u.History.Finished) ∧
    ((∃ r2, (handleRadarr h now u r name).History.Map.lookup name = some r2 ∧
        r2.App = r.App ∧ r2.Files = r.Files ∧
        (r2.Updated ≠ r.Updated → r2.Status ≠ r.Status)) ∧
      (∀ other : String, other ≠ name →
        (handleRadarr h now u r name).History.Map.lookup other =
          u.History.Map.lookup other) ∧
      (handleRadarr h now u r name).History.Finished = u.History.Finished) := by
  rw [handleSonarr_eq_handled, handleRadarr_eq_handled]
  exact ⟨⟨(handled_touches_status_only now u _ r name hr).1,
      fun other hne => handled_lookup_of_ne now u _ r hne,
      (handled_touches_status_only now u _ r name hr).2⟩,
    ⟨(handled_touches_status_only now u _ r name hr).1,
      fun other hne => handled_lookup_of_ne now u _ r hne,
      (handled_touches_status_only now u _ r name hr).2⟩⟩

/-- The frame of a handler on the sample state: the stored record is handed to
`handleSonarr` two hours after its last update. -/
theorem handler_touches_status_only_witness :
    sampleState.History.Map.lookup "Show.S01E01" = some sampleRecord ∧
    (handleSonarr sampleHelpers 7200000000000 sampleState sampleRecord
      "Show.S01E01").History.Finished = sampleState.History.Finished :=
  ⟨by decide, (handler_touches_status_only sampleHelpers 7200000000000 sampleState
    sampleRecord "Show.S01E01" (by decide)).1.2.2⟩

/-- C19. Both handlers are the unified handler of the spec, each with the lookup
of its application as the capability; so when the Sonarr lookup and the Radarr
lookup return the same queue item, `handleSonarr` and `handleRadarr` return the
same state: the same history and the same trace of deletes. -/
theorem handlers_are_one (h : Helpers) (now : Int) (u : Unpackerr) (data : Extracts)
    (name : String) :
    handleSonarr h now u data name =
      unifiedHandler (h.getSonarQitem u.SonarrQ) now u data name ∧
    handleRadarr h now u data name =
      unifiedHandler (h.getRadarQitem u.RadarrQ) now u data name ∧
    (∀ (h2 : Helpers) (q : QueueItem),
      h.getSonarQitem u.SonarrQ name = q → h2.getRadarQitem u.RadarrQ name = q →
      handleSonarr h now u data name = handleRadarr h2 now u data name) := by
  refine ⟨?_, ?_, ?_⟩
  · rw [handleSonarr_eq_handled]
    rfl
  · rw [handleRadarr_eq_handled]
    rfl
  · intro h2 q hq hq2
    rw [handleSonarr_eq_handled, handleRadarr_eq_handled, hq, hq2]

/-- The two handlers on the sample state, with lookups that both find nothing. -/
theorem handlers_are_one_witness :
    handleSonarr sampleHelpers 7200000000000 sampleState sampleImported "Show.S01E01" =
      handleRadarr sampleHelpers 7200000000000 sampleState sampleImported "Show.S01E01" :=
  (handlers_are_one sampleHelpers 7200000000000 sampleState sampleImported
    "Show.S01E01").2.2 sampleHelpers (QueueItem.mk "" "" "") rfl rfl

/-! ## Which records a pass evaluates -/

/-- In a list of jobs with distinct names, the jobs for the name of a member are
that member alone. -/
theorem filter_name_eq_singleton (j : Job) :
    ∀ l : List Job, (l.map Job.name).Nodup → j ∈ l →
      l.filter (fun x => decide (x.name = j.name)) = [j] := by
  intro l
  induction l with
  | nil => intro _ hj; exact absurd hj (List.not_mem_nil j)
  | cons a rest ih =>
    intro hnd hj
    rw [List.map_cons, List.nodup_cons] at hnd
    by_cases hja : j = a
    · subst hja
      have hrest : rest.filter (fun x => decide (x.name = j.name)) = [] := by
        rw [List.filter_eq_nil_iff]
        intro x hx hdec
        exact hnd.1 (of_decide_eq_true hdec ▸ List.mem_map_of_mem Job.name hx)
      rw [List.filter_cons_of_pos (by simp), hrest]
    · have hjr : j ∈ rest := (List.mem_cons.mp hj).resolve_left hja
      have hne : ¬ (a.name = j.name) := fun heq =>
        hnd.1 (heq ▸ List.mem_map_of_mem Job.name hjr)
      rw [List.filter_cons_of_neg (by simpa using hne)]
      exact ih hnd.2 hjr

/-- The jobs of a pass for a name of the history: the one job the `switch`
starts for its record, or none. -/
theorem jobs_for_name (now : Int) (u : Unpackerr) (name : String) (data : Extracts)
    (hd : u.History.Map.lookup name = some data) :
    (CheckExtractDone now u).filter (fun x => decide (x.name = name)) =
      (checkEntry u.DeleteDelay now name data).toList := by
  cases hc : checkEntry u.DeleteDelay now name data with
  | none =>
    rw [Option.toList, List.filter_eq_nil_iff]
    intro j hj hdec
    have hn : j.name = name := of_decide_eq_true hdec
    obtain ⟨data2, hl2, hc2⟩ := mem_CheckExtractDone.mp hj
    rw [hn, hd] at hl2
    rw [hn, ← Option.some.inj hl2, hc] at hc2
    exact Option.noConfusion hc2
  | some j =>
    have hn : j.name = name := checkEntry_name hc
    subst hn
    exact filter_name_eq_singleton j _ (CheckExtractDone_names_nodup now u)
      (mem_CheckExtractDone.mpr ⟨data, hd, hc⟩)

/-- Counterexample to C16: the only record of the history is `EXTRACTED` and its
application string is "Lidarr". `CheckExtractDone` starts no job at all, at time
5 as at two hours, and the pass leaves the state as it is. -/
theorem unknown_app_gets_no_handler :
    sampleLidarr.History.Map.lookup "Album.2020" =
      some (Extracts.mk "Lidarr" ["b.rar"] EXTRACTED 0) ∧
    CheckExtractDone 5 sampleLidarr = [] ∧
    CheckExtractDone 7200000000000 sampleLidarr = [] ∧
    advance sampleHelpers 7200000000000 sampleLidarr = sampleLidarr :=
  ⟨by decide, by decide, by decide, rfl⟩

/-- C16, amended. For a record of the history with
`EXTRACTED ≤ status ≤ IMPORTED`: when its application string is "Sonarr" the pass
starts exactly one job for its name, `handleSonarr` with a copy of the record,
and when it is "Radarr" exactly one job, `handleRadarr` with a copy of the
record; run on any state, that job is the unified handler of the spec with the
lookup in the queue of that application. For any other application string the
pass starts no job for the name. -/
theorem in_range_dispatch (now : Int) (u : Unpackerr) (name : String) (data : Extracts)
    (hd : u.History.Map.lookup name = some data)
    (hlo : EXTRACTED ≤ data.Status) (hhi : data.Status ≤ IMPORTED) :
    (data.App = "Sonarr" →
      (CheckExtractDone now u).filter (fun x => decide (x.name = name)) =
        [Job.handleSonarr data name]) ∧
    (data.App = "Radarr" →
      (CheckExtractDone now u).filter (fun x => decide (x.name = name)) =
        [Job.handleRadarr data name]) ∧
    (data.App ≠ "Sonarr" → data.App ≠ "Radarr" →
      (CheckExtractDone now u).filter (fun x => decide (x.name = name)) = []) ∧
    (∀ (h : Helpers) (t : Int) (v : Unpackerr),
      (Job.handleSonarr data name).run h t v =
        unifiedHandler (h.getSonarQitem v.SonarrQ) t v data name ∧
      (Job.handleRadarr data name).run h t v =
        unifiedHandler (h.getRadarQitem v.RadarrQ) t v data name) := by
  have h1 : ¬ (data.Status ≥ DELETED ∧ now - data.Updated ≥ wrapInt64 (u.DeleteDelay * 2)) := by
    rintro ⟨hdel, _⟩
    exact absurd (Nat.le_trans hdel hhi) (by decide)
  have h2 : ¬ (data.Status < EXTRACTED ∨ data.Status > IMPORTED) := by
    rintro (hlt | hgt)
    · exact absurd hlo (Nat.not_le.mpr hlt)
    · exact absurd hhi (Nat.not_le.mpr hgt)
  rw [jobs_for_name now u name data hd]
  unfold checkEntry
  rw [if_neg h1, if_neg h2]
  refine ⟨?_, ?_, ?_, ?_⟩
  · intro happ
    rw [if_pos happ]
    rfl
  · intro happ
    have hns : ¬ (data.App = "Sonarr") := by
      rw [happ]
      decide
    rw [if_neg hns, if_pos happ]
    rfl
  · intro hs hr
    rw [if_neg hs, if_neg hr]
    rfl
  · intro h t v
    constructor
    · show handleSonarr h t v data name = _
      rw [handleSonarr_eq_handled]
      rfl
    · show handleRadarr h t v data name = _
      rw [handleRadarr_eq_handled]
      rfl

/-- The amended C16 on the sample state with its record `EXTRACTED`: the pass
starts the one job `handleSonarr` for it. -/
theorem in_range_dispatch_witness :
    sampleTracked.History.Map.lookup "Show.S01E01" = some sampleExtracted ∧
    (CheckExtractDone 5 sampleTracked).filter (fun x => decide (x.name = "Show.S01E01")) =
      [Job.handleSonarr sampleExtracted "Show.S01E01"] :=
  ⟨by decide, (in_range_dispatch 5 sampleTracked "Show.S01E01" sampleExtracted
    (by decide) (by decide) (by decide)).1 rfl⟩

/-! ## The detection filter -/

/-- C17. The detection pass starts `HandleCompleted` for exactly the cached items
whose status is "Completed" and whose protocol is "torrent", once per such item,
in the order of the list, with the item's title as name; when the cached list
holds no such item the pass starts nothing and leaves the state, and so the
history, unchanged. -/
theorem detection_filter (u : Unpackerr) :
    CheckSonarrQueue u =
      (u.SonarrQ.filter (fun q => decide (q.Status = "Completed" ∧ q.Protocol = torrent))).map
        (fun q => { name := q.Title, app := "Sonarr", path := u.Config.SonarrPath }) ∧
    CheckRadarrQueue u =
      (u.RadarrQ.filter (fun q => decide (q.Status = "Completed" ∧ q.Protocol = torrent))).map
        (fun q => { name := q.Title, app := "Radarr", path := u.Config.RadarrPath }) ∧
    (∀ (h : Helpers) (now : Int),
      (∀ q ∈ u.SonarrQ, ¬ (q.Status = "Completed" ∧ q.Protocol = torrent)) →
      CheckSonarrQueue u = [] ∧ runCompleted h now (CheckSonarrQueue u) u = u) ∧
    (∀ (h : Helpers) (now : Int),
      (∀ q ∈ u.RadarrQ, ¬ (q.Status = "Completed" ∧ q.Protocol = torrent)) →
      CheckRadarrQueue u = [] ∧ runCompleted h now (CheckRadarrQueue u) u = u) := by
  have hS : ∀ l : List QueueItem, l.filterMap (checkSonarrItem u.Config) =
      (l.filter (fun q => decide (q.Status = "Completed" ∧ q.Protocol = torrent))).map
        (fun q => { name := q.Title, app := "Sonarr", path := u.Config.SonarrPath }) := by
    intro l
    induction l with
    | nil => rfl
    | cons q rest ih =>
      by_cases hq : q.Status = "Completed" ∧ q.Protocol = torrent
      · simp [List.filterMap_cons, checkSonarrItem, hq, ih]
      · simp [List.filterMap_cons, checkSonarrItem, hq, ih]
  have hR : ∀ l : List QueueItem, l.filterMap (checkRadarrItem u.Config) =
      (l.filter (fun q => decide (q.Status = "Completed" ∧ q.Protocol = torrent))).map
        (fun q => { name := q.Title, app := "Radarr", path := u.Config.RadarrPath }) := by
    intro l
    induction l with
    | nil => rfl
    | cons q rest ih =>
      by_cases hq : q.Status = "Completed" ∧ q.Protocol = torrent
      · simp [List.filterMap_cons, checkRadarrItem, hq, ih]
      · simp [List.filterMap_cons, checkRadarrItem, hq, ih]
  refine ⟨hS u.SonarrQ, hR u.RadarrQ, ?_, ?_⟩
  · intro h now hno
    have hnil : CheckSonarrQueue u = [] := by
      unfold CheckSonarrQueue
      rw [hS, List.map_eq_nil_iff, List.filter_eq_nil_iff]
      intro q hq hdec
      exact hno q hq (of_decide_eq_true hdec)
    rw [hnil]
    exact ⟨rfl, rfl⟩
  · intro h now hno
    have hnil : CheckRadarrQueue u = [] := by
      unfold CheckRadarrQueue
      rw [hR, List.map_eq_nil_iff, List.filter_eq_nil_iff]
      intro q hq hdec
      exact hno q hq (of_decide_eq_true hdec)
    rw [hnil]
    exact ⟨rfl, rfl⟩

/-- The filter at work: with only the usenet item cached for Sonarr, the pass
starts nothing and the sample state, record included, is unchanged. -/
theorem detection_filter_witness :
    CheckSonarrQueue { sampleState with SonarrQ := [usenetItem] } = [] ∧
    runCompleted sampleHelpers 5 (CheckSonarrQueue { sampleState with SonarrQ := [usenetItem] })
      { sampleState with SonarrQ := [usenetItem] } =
      { sampleState with SonarrQ := [usenetItem] } :=
  (detection_filter { sampleState with SonarrQ := [usenetItem] }).2.2.1 sampleHelpers 5
    (by decide)

/-- C18. When the locator finds no file, `HandleCompleted` returns the state it
was given: the history is unchanged and no extraction is started. So a name
that was absent is still absent, and a later `HandleCompleted` for the same name
whose locator finds files stores a record under the name. -/
theorem HandleCompleted_no_files (h : Helpers) (now : Int) (u : Unpackerr)
    (name app path : String)
    (hfiles : h.FindRarFiles (h.filepathJoin path name) = []) :
    HandleCompleted h now u name app path = u ∧
    (u.History.Map.lookup name = none →
      (HandleCompleted h now u name app path).History.Map.lookup name = none ∧
      ∀ (h2 : Helpers) (now2 : Int) (app2 path2 : String),
        h2.FindRarFiles (h2.filepathJoin path2 name) ≠ [] →
        (HandleCompleted h2 now2 (HandleCompleted h now u name app path)
            name app2 path2).History.Map.lookup name =
          some { App := app2, Files := h2.FindRarFiles (h2.filepathJoin path2 name),
                 Status := EXTRACTING, Updated := now2 } ∧
        (HandleCompleted h2 now2 (HandleCompleted h now u name app path)
            name app2 path2).Extracting =
          u.Extracting ++ [(name, h2.filepathJoin path2 name,
            h2.FindRarFiles (h2.filepathJoin path2 name))]) := by
  have hsame : HandleCompleted h now u name app path = u := by
    simp [HandleCompleted, hfiles]
  rw [hsame]
  refine ⟨rfl, fun hnone => ⟨hnone, ?_⟩⟩
  intro h2 now2 app2 path2 hfound
  have hex : historyExists u name = false := by simp [historyExists, hnone]
  have hlen : (h2.FindRarFiles (h2.filepathJoin path2 name)).length > 0 :=
    List.length_pos.mpr hfound
  simp [HandleCompleted, hex, hlen, extractFiles, CreateStatus, AList.lookup_insert]

/-- No files, then files: on the fresh sample state the first call changes
nothing, and a second call whose locator finds an archive creates the record. -/
theorem HandleCompleted_no_files_witness :
    HandleCompleted sampleEmptyHelpers 5 sampleFresh "Show.S01E01" "Sonarr" "/tv" =
      sampleFresh ∧
    (HandleCompleted sampleHelpers 9
        (HandleCompleted sampleEmptyHelpers 5 sampleFresh "Show.S01E01" "Sonarr" "/tv")
        "Show.S01E01" "Sonarr" "/tv").History.Map.lookup "Show.S01E01" =
      some (Extracts.mk "Sonarr" ["/tv/Show.S01E01/a.rar"] EXTRACTING 9) :=
  ⟨(HandleCompleted_no_files sampleEmptyHelpers 5 sampleFresh "Show.S01E01" "Sonarr" "/tv"
      rfl).1,
    (((HandleCompleted_no_files sampleEmptyHelpers 5 sampleFresh "Show.S01E01" "Sonarr" "/tv"
      rfl).2 rfl).2 sampleHelpers 9 "Sonarr" "/tv" (by simp [sampleHelpers])).1⟩

/-! ## The trace of deletes of a pass -/

/-- The trace of deletes after a handler has run. -/
theorem handled_Deleted (now : Int) (u : Unpackerr) (item : QueueItem) (data : Extracts)
    (name : String) :
    (handled now u item data name).Deleted =
      u.Deleted ++ (if callsDelete item u.DeleteDelay now data then [data.Files] else []) := by
  unfold handled callsDelete
  by_cases h1 : item.Status = ""
  · by_cases h2 : item.Protocol ≠ torrent ∧ item.Protocol ≠ ""
    · simp [h1, h2]
    · by_cases h3 : data.Status = IMPORTED
      · by_cases h4 : now - data.Updated ≥ u.DeleteDelay
        · simp [h1, h2, h3, h4]
        · simp [h1, h2, h3, h4]
      · simp [h1, h2, h3]
  · simp [h1]

/-- The trace of deletes after a job has run: the call named by `Job.deleted` is
appended, if there is one. -/
theorem Job.run_Deleted (h : Helpers) (now : Int) (u : Unpackerr) (j : Job) :
    (j.run h now u).Deleted = u.Deleted ++ ((j.deleted h now u).toList.map Prod.snd) := by
  cases j with
  | finishFinished app name => simp [Job.run, Job.deleted, Unpacker.finishFinished]
  | handleSonarr data name =>
    simp only [Job.run, Job.deleted, handleSonarr_eq_handled, handled_Deleted]
    split_ifs <;> rfl
  | handleRadarr data name =>
    simp only [Job.run, Job.deleted, handleRadarr_eq_handled, handled_Deleted]
    split_ifs <;> rfl

/-- Whether a job deletes depends on the state only through the queues and the
delete delay. -/
theorem Job.deleted_congr (h : Helpers) (now : Int) (j : Job) (u v : Unpackerr)
    (hS : v.SonarrQ = u.SonarrQ) (hR : v.RadarrQ = u.RadarrQ)
    (hD : v.DeleteDelay = u.DeleteDelay) :
    j.deleted h now v = j.deleted h now u := by
  cases j <;> simp only [Job.deleted, hS, hR, hD]

/-- The trace of deletes after a list of jobs has run. -/
theorem runTasks_Deleted (h : Helpers) (now : Int) (u : Unpackerr) :
    ∀ (ts : List Job) (v : Unpackerr),
      v.SonarrQ = u.SonarrQ → v.RadarrQ = u.RadarrQ → v.DeleteDelay = u.DeleteDelay →
      (runTasks h now ts v).Deleted =
        v.Deleted ++ (ts.filterMap (Job.deleted h now u)).map Prod.snd := by
  intro ts
  induction ts with
  | nil => intro v _ _ _; simp [runTasks]
  | cons a rest ih =>
    intro v hS hR hD
    obtain ⟨fS, fR, fD⟩ := Job.run_frame h now v a
    show (runTasks h now rest (a.run h now v)).Deleted = _
    rw [ih (a.run h now v) (fS.trans hS) (fR.trans hR) (fD.trans hD), Job.run_Deleted,
      Job.deleted_congr h now a u v hS hR hD, List.filterMap_cons]
    cases a.deleted h now u <;> simp

/-- The name of a delete is the name of the job that makes it. -/
theorem Job.deleted_name {h : Helpers} {now : Int} {u : Unpackerr} {j : Job}
    {e : String × List String} (he : j.deleted h now u = some e) : e.1 = j.name := by
  cases j with
  | finishFinished app name => simp [Job.deleted] at he
  | handleSonarr data name =>
    simp only [Job.deleted] at he
    split_ifs at he
    rw [← Option.some.inj he]
    rfl
  | handleRadarr data name =>
    simp only [Job.deleted] at he
    split_ifs at he
    rw [← Option.some.inj he]
    rfl

/-- The names of the deletes made by a list of jobs form a sublist of the names
of the jobs. -/
theorem deleted_names_sublist (h : Helpers) (now : Int) (u : Unpackerr) (ts : List Job) :
    ((ts.filterMap (Job.deleted h now u)).map Prod.fst).Sublist (ts.map Job.name) := by
  induction ts with
  | nil => simp
  | cons a rest ih =>
    cases he : a.deleted h now u with
    | none =>
      simp only [List.filterMap_cons, he, List.map_cons]
      exact ih.trans (List.sublist_cons_self _ _)
    | some e =>
      simp only [List.filterMap_cons, he, List.map_cons, Job.deleted_name he]
      exact ih.cons₂ _

/-- The records a pass skips, for a delete delay whose double fits in 64 bits
(`-2^62 ≤ DeleteDelay < 2^62`, in nanoseconds). A record with status below
`EXTRACTED`, or with status above `IMPORTED` and
`now - updated < 2 * deleteDelay`, is skipped by an advancement pass: the
`switch` starts nothing for it, so no job of the pass, handler or reaper, works
on its name; the record is the same after the pass (the jobs run in any order);
and every `deleteFiles` call of the pass is made by a job for another name. For
a record with status below `EXTRACTED` the bounds on the delay are not needed
(see `low_status_skipped`). -/
theorem out_of_range_skipped_of_fits (h : Helpers) (now : Int) (u : Unpackerr) (ts : List Job)
    (hts : ts.Perm (CheckExtractDone now u)) (name : String) (data : Extracts)
    (hd : u.History.Map.lookup name = some data)
    (hlo : -4611686018427387904 ≤ u.DeleteDelay) (hhi : u.DeleteDelay < 4611686018427387904)
    (hrange : data.Status < EXTRACTED ∨
      (data.Status > IMPORTED ∧ now - data.Updated < 2 * u.DeleteDelay)) :
    checkEntry u.DeleteDelay now name data = none ∧
    (∀ j ∈ ts, j.name ≠ name) ∧
    (runTasks h now ts u).History.Map.lookup name = some data ∧
    (runTasks h now ts u).Deleted =
      u.Deleted ++ (ts.filterMap (Job.deleted h now u)).map Prod.snd ∧
    (∀ e ∈ ts.filterMap (Job.deleted h now u), e.1 ≠ name) := by
  have hw : wrapInt64 (u.DeleteDelay * 2) = 2 * u.DeleteDelay := by
    rw [wrapInt64_of_fits _ (by omega) (by omega)]
    omega
  have hnone : checkEntry u.DeleteDelay now name data = none := by
    have h1 : ¬ (data.Status ≥ DELETED ∧
        now - data.Updated ≥ wrapInt64 (u.DeleteDelay * 2)) := by
      rintro ⟨hdel, hold⟩
      rcases hrange with hlt | ⟨_, hyoung⟩
      · have hlt2 : data.Status.rank < 2 := hlt
        have hdel2 : 4 ≤ data.Status.rank := hdel
        omega
      · rw [hw] at hold
        exact absurd hold (not_le.mpr hyoung)
    have h2 : data.Status < EXTRACTED ∨ data.Status > IMPORTED :=
      hrange.imp id (fun hr => hr.1)
    unfold checkEntry
    rw [if_neg h1, if_pos h2]
  have hjobs : ∀ j ∈ ts, j.name ≠ name := by
    intro j hj hjn
    obtain ⟨data2, hl2, hc2⟩ := mem_CheckExtractDone.mp (hts.mem_iff.mp hj)
    rw [hjn, hd] at hl2
    rw [hjn, ← Option.some.inj hl2, hnone] at hc2
    exact Option.noConfusion hc2
  refine ⟨hnone, hjobs, ?_, runTasks_Deleted h now u ts u rfl rfl rfl, ?_⟩
  · rw [pass_lookup h now u ts hts name data hd, hnone]
  · intro e he
    obtain ⟨j, hj, hje⟩ := List.mem_filterMap.mp he
    rw [Job.deleted_name hje]
    exact hjobs j hj

/-- A record with status below `EXTRACTED` is skipped by a pass whatever the
delete delay: the `switch` starts nothing for it and the record is the same
after the pass. -/
theorem low_status_skipped (h : Helpers) (now : Int) (u : Unpackerr) (ts : List Job)
    (hts : ts.Perm (CheckExtractDone now u)) (name : String) (data : Extracts)
    (hd : u.History.Map.lookup name = some data) (hlow : data.Status < EXTRACTED) :
    checkEntry u.DeleteDelay now name data = none ∧
    (runTasks h now ts u).History.Map.lookup name = some data := by
  have hnone : checkEntry u.DeleteDelay now name data = none := by
    have h1 : ¬ (data.Status ≥ DELETED ∧
        now - data.Updated ≥ wrapInt64 (u.DeleteDelay * 2)) := by
      rintro ⟨hdel, _⟩
      have hlt2 : data.Status.rank < 2 := hlow
      have hdel2 : 4 ≤ data.Status.rank := hdel
      omega
    unfold checkEntry
    rw [if_neg h1, if_pos (Or.inl hlow)]
  exact ⟨hnone, by rw [pass_lookup h now u ts hts name data hd, hnone]⟩

/-- C15. With a delete delay of `2^62` ns the 64-bit product `DeleteDelay*2` is
`-2^63`. The record of `sampleLongDelay` has status `DELETED`, above `IMPORTED`,
and at time 7 `now - updated = 7` is below `2 * deleteDelay = 2^63`; yet
`CheckExtractDone` starts the reaper `finishFinished` for it, and after the pass
the record is not unchanged: it is gone and counted as finished. -/
theorem young_record_reaped_when_product_wraps :
    sampleLongDelay.History.Map.lookup "Show.S01E01" = some sampleRecord ∧
    sampleRecord.Status > IMPORTED ∧
    7 - sampleRecord.Updated < 2 * sampleLongDelay.DeleteDelay ∧
    CheckExtractDone 7 sampleLongDelay = [Job.finishFinished "Sonarr" "Show.S01E01"] ∧
    (advance sampleHelpers 7 sampleLongDelay).History.Map.lookup "Show.S01E01" = none ∧
    (advance sampleHelpers 7 sampleLongDelay).History.Finished = 1 := by
  decide

/-! ## The life of one record -/

/-- On a history with one record, a pass is the one job of that record, if the
`switch` starts one. -/
theorem advance_single (h : Helpers) (now : Int) (u : Unpackerr) (name : String)
    (data : Extracts) (hmap : u.History.Map.entries = [⟨name, data⟩]) :
    advance h now u =
      match checkEntry u.DeleteDelay now name data with
      | none => u
      | some j => j.run h now u := by
  unfold advance CheckExtractDone runTasks
  rw [hmap]
  simp only [List.filterMap_cons, List.filterMap_nil]
  cases checkEntry u.DeleteDelay now name data <;> rfl

/-- Storing a record under the only name of a map gives the map with that one
record. -/
theorem insert_single (m : AList (fun _ : String => Extracts)) (name : String)
    (data r : Extracts) (hmap : m.entries = [⟨name, data⟩]) :
    m.insert name r = AList.singleton name r := by
  apply AList.ext
  have hk : List.kerase name [(⟨name, data⟩ : Sigma (fun _ : String => Extracts))] = [] :=
    List.kerase_cons_eq rfl
  rw [AList.insert_entries, hmap, hk]
  rfl

/-- Deleting the only name of a map gives the empty map. -/
theorem erase_single (m : AList (fun _ : String => Extracts)) (name : String)
    (data : Extracts) (hmap : m.entries = [⟨name, data⟩]) :
    m.erase name = ∅ := by
  apply AList.ext
  show List.kerase name m.entries = []
  rw [hmap]
  exact List.kerase_cons_eq rfl

/-- The handler of a record whose name the lookup does not find. -/
theorem handled_absent (now : Int) (u : Unpackerr) (data : Extracts) (name : String) :
    handled now u (QueueItem.mk "" "" "") data name =
      if data.Status ≠ IMPORTED then
        { u with History :=
            { u.History with
              Map := u.History.Map.insert name
                { data with Status := IMPORTED, Updated := now } } }
      else if now - data.Updated ≥ u.DeleteDelay then
        { u with
          Deleted := u.Deleted ++ [data.Files],
          History :=
            { u.History with
              Map := u.History.Map.insert name
                { data with Status := DELETED, Updated := now } } }
      else u := by
  simp [handled]

/-- The pass that imports: the only record is `EXTRACTED`, owned by Sonarr or
Radarr, and the lookup of its application does not find the name. -/
theorem step_import (h : Helpers) (now : Int) (v : Unpackerr) (name : String) (d : Extracts)
    (hmap : v.History.Map.entries = [⟨name, d⟩]) (hs : d.Status = EXTRACTED)
    (habs : (d.App = "Sonarr" ∧ h.getSonarQitem v.SonarrQ name = QueueItem.mk "" "" "") ∨
      (d.App = "Radarr" ∧ h.getRadarQitem v.RadarrQ name = QueueItem.mk "" "" "")) :
    advance h now v =
      { v with History :=
          { Map := AList.singleton name { d with Status := IMPORTED, Updated := now },
            Finished := v.History.Finished } } := by
  have h1 : ¬ (d.Status ≥ DELETED ∧ now - d.Updated ≥ wrapInt64 (v.DeleteDelay * 2)) := by
    rw [hs]
    rintro ⟨hdel, _⟩
    exact absurd hdel (by decide)
  have h2 : ¬ (d.Status < EXTRACTED ∨ d.Status > IMPORTED) := by
    rw [hs]
    decide
  have h3 : d.Status ≠ IMPORTED := by
    rw [hs]
    decide
  rw [advance_single h now v name d hmap]
  unfold checkEntry
  rw [if_neg h1, if_neg h2]
  rcases habs with ⟨happ, hq⟩ | ⟨happ, hq⟩
  · rw [if_pos happ]
    show handleSonarr h now v d name = _
    rw [handleSonarr_eq_handled, hq, handled_absent, if_pos h3,
      insert_single v.History.Map name d _ hmap]
  · have hns : ¬ (d.App = "Sonarr") := by
      rw [happ]
      decide
    rw [if_neg hns, if_pos happ]
    show handleRadarr h now v d name = _
    rw [handleRadarr_eq_handled, hq, handled_absent, if_pos h3,
      insert_single v.History.Map name d _ hmap]

/-- The pass that deletes: the only record is `IMPORTED` for at least the delete
delay, owned by Sonarr or Radarr, and the lookup of its application does not
find the name. -/
theorem step_delete (h : Helpers) (now : Int) (v : Unpackerr) (name : String) (d : Extracts)
    (hmap : v.History.Map.entries = [⟨name, d⟩]) (hs : d.Status = IMPORTED)
    (hold : now - d.Updated ≥ v.DeleteDelay)
    (habs : (d.App = "Sonarr" ∧ h.getSonarQitem v.SonarrQ name = QueueItem.mk "" "" "") ∨
      (d.App = "Radarr" ∧ h.getRadarQitem v.RadarrQ name = QueueItem.mk "" "" "")) :
    advance h now v =
      { v with
        Deleted := v.Deleted ++ [d.Files],
        History :=
          { Map := AList.singleton name { d with Status := DELETED, Updated := now },
            Finished := v.History.Finished } } := by
  have h1 : ¬ (d.Status ≥ DELETED ∧ now - d.Updated ≥ wrapInt64 (v.DeleteDelay * 2)) := by
    rw [hs]
    rintro ⟨hdel, _⟩
    exact absurd hdel (by decide)
  have h2 : ¬ (d.Status < EXTRACTED ∨ d.Status > IMPORTED) := by
    rw [hs]
    decide
  have h3 : ¬ (d.Status ≠ IMPORTED) := not_not.mpr hs
  rw [advance_single h now v name d hmap]
  unfold checkEntry
  rw [if_neg h1, if_neg h2]
  rcases habs with ⟨happ, hq⟩ | ⟨happ, hq⟩
  · rw [if_pos happ]
    show handleSonarr h now v d name = _
    rw [handleSonarr_eq_handled, hq, handled_absent, if_neg h3, if_pos hold,
      insert_single v.History.Map name d _ hmap]
  · have hns : ¬ (d.App = "Sonarr") := by
      rw [happ]
      decide
    rw [if_neg hns, if_pos happ]
    show handleRadarr h now v d name = _
    rw [handleRadarr_eq_handled, hq, handled_absent, if_neg h3, if_pos hold,
      insert_single v.History.Map name d _ hmap]

/-- The pass that reaps: the only record is `DELETED` for at least the 64-bit
value of twice the delete delay. -/
theorem step_reap (h : Helpers) (now : Int) (v : Unpackerr) (name : String) (d : Extracts)
    (hmap : v.History.Map.entries = [⟨name, d⟩]) (hs : d.Status = DELETED)
    (hold : now - d.Updated ≥ wrapInt64 (v.DeleteDelay * 2)) :
    advance h now v =
      { v with History := { Map := ∅, Finished := v.History.Finished + 1 } } := by
  have h1 : d.Status ≥ DELETED ∧ now - d.Updated ≥ wrapInt64 (v.DeleteDelay * 2) := by
    rw [hs]
    exact ⟨by decide, hold⟩
  rw [advance_single h now v name d hmap]
  unfold checkEntry
  rw [if_pos h1]
  show finishFinished v d.App name = _
  unfold finishFinished
  rw [erase_single v.History.Map name d hmap]

/-- The record of a map with one record. -/
theorem lookup_singleton_self (name : String) (r : Extracts) :
    (AList.singleton name r : AList (fun _ : String => Extracts)).lookup name = some r := by
  rw [← AList.insert_empty]
  exact AList.lookup_insert _

/-- Counterexample to C13: the one record of `sampleLidarr` is `EXTRACTED`, its
application string is "Lidarr" and the lookups find its name in no queue. With
a delete delay of one hour, the passes at 5 ns, 61 minutes later and two hours
after that leave the record as it was: it is `EXTRACTED` with `updated = 0`
after the first pass and after the third, no delete is made and nothing is
counted as finished. -/
theorem lifecycle_stalls_for_other_app :
    sampleLidarr.History.Map.entries =
      [⟨"Album.2020", Extracts.mk "Lidarr" ["b.rar"] EXTRACTED 0⟩] ∧
    sampleHelpers.getSonarQitem sampleLidarr.SonarrQ "Album.2020" = QueueItem.mk "" "" "" ∧
    sampleHelpers.getRadarQitem sampleLidarr.RadarrQ "Album.2020" = QueueItem.mk "" "" "" ∧
    (0 : Int) ≤ sampleLidarr.DeleteDelay ∧
    (advance sampleHelpers 5 sampleLidarr).History.Map.lookup "Album.2020" =
      some (Extracts.mk "Lidarr" ["b.rar"] EXTRACTED 0) ∧
    (advance sampleHelpers 10860000000005 (advance sampleHelpers 3660000000005
        (advance sampleHelpers 5 sampleLidarr))).History.Map.lookup "Album.2020" =
      some (Extracts.mk "Lidarr" ["b.rar"] EXTRACTED 0) ∧
    (advance sampleHelpers 10860000000005 (advance sampleHelpers 3660000000005
        (advance sampleHelpers 5 sampleLidarr))).Deleted = [] ∧
    (advance sampleHelpers 10860000000005 (advance sampleHelpers 3660000000005
        (advance sampleHelpers 5 sampleLidarr))).History.Finished = 0 := by
  decide

/-- C13, amended. Start from a history whose one record is `EXTRACTED`, whose
application is "Sonarr" or "Radarr", and whose name the lookup in the queue of
that application does not find. For a delete delay `deleteDelay ≥ 0` and times
with `t1 - t0 ≥ deleteDelay` and `t2 - t1 ≥ 2 * deleteDelay` (so `t0 ≤ t1 ≤ t2`),
the passes at `t0`, `t1` and `t2`, one after the other, give in turn: the record
`IMPORTED` with `updated = t0` and no delete; the record `DELETED` with
`updated = t1`, one `deleteFiles` call on its files and the finished counter as
before; an empty history, no further delete and the finished counter increased
by one. -/
theorem single_record_lifecycle (h : Helpers) (u : Unpackerr) (name : String) (data : Extracts)
    (t0 t1 t2 : Int)
    (hmap : u.History.Map.entries = [⟨name, data⟩]) (hs : data.Status = EXTRACTED)
    (habs : (data.App = "Sonarr" ∧ h.getSonarQitem u.SonarrQ name = QueueItem.mk "" "" "") ∨
      (data.App = "Radarr" ∧ h.getRadarQitem u.RadarrQ name = QueueItem.mk "" "" ""))
    (hdelay : 0 ≤ u.DeleteDelay)
    (h1 : t1 - t0 ≥ u.DeleteDelay) (h2 : t2 - t1 ≥ 2 * u.DeleteDelay) :
    ((advance h t0 u).History.Map.lookup name =
        some { data with Status := IMPORTED, Updated := t0 } ∧
      (advance h t0 u).Deleted = u.Deleted ∧
      (advance h t0 u).History.Finished = u.History.Finished) ∧
    ((advance h t1 (advance h t0 u)).History.Map.lookup name =
        some { data with Status := DELETED, Updated := t1 } ∧
      (advance h t1 (advance h t0 u)).Deleted = u.Deleted ++ [data.Files] ∧
      (advance h t1 (advance h t0 u)).History.Finished = u.History.Finished) ∧
    ((advance h t2 (advance h t1 (advance h t0 u))).History.Map.lookup name = none ∧
      (advance h t2 (advance h t1 (advance h t0 u))).History.Map.entries = [] ∧
      (advance h t2 (advance h t1 (advance h t0 u))).Deleted = u.Deleted ++ [data.Files] ∧
      (advance h t2 (advance h t1 (advance h t0 u))).History.Finished =
        u.History.Finished + 1) := by
  have hwrap : t2 - t1 ≥ wrapInt64 (u.DeleteDelay * 2) := by
    have hle := wrapInt64_le_of_nonneg (u.DeleteDelay * 2) (by omega)
    omega
  have e1 := step_import h t0 u name data hmap hs habs
  have e2 := step_delete h t1
    { u with History :=
        { Map := AList.singleton name { data with Status := IMPORTED, Updated := t0 },
          Finished := u.History.Finished } }
    name { data with Status := IMPORTED, Updated := t0 } rfl rfl h1 habs
  have e3 := step_reap h t2
    { u with
      Deleted := u.Deleted ++ [data.Files],
      History :=
        { Map := AList.singleton name { data with Status := DELETED, Updated := t1 },
          Finished := u.History.Finished } }
    name { data with Status := DELETED, Updated := t1 } rfl rfl hwrap
  rw [e1, e2, e3]
  exact ⟨⟨lookup_singleton_self name _, rfl, rfl⟩, ⟨lookup_singleton_self name _, rfl, rfl⟩,
    ⟨rfl, rfl, rfl, rfl⟩⟩

/-- The life of the sample record, extracted at 0, with a delete delay of one
hour: imported at 5 ns, deleted 61 minutes later, reaped two hours after that. -/
theorem single_record_lifecycle_witness :
    (advance sampleHelpers 5 sampleTracked).History.Map.lookup "Show.S01E01" =
      some (Extracts.mk "Sonarr" ["a.rar"] IMPORTED 5) ∧
    (advance sampleHelpers 3660000000005
        (advance sampleHelpers 5 sampleTracked)).Deleted = [["a.rar"]] ∧
    (advance sampleHelpers 10860000000005 (advance sampleHelpers 3660000000005
        (advance sampleHelpers 5 sampleTracked))).History.Finished = 1 :=
  ⟨(single_record_lifecycle sampleHelpers sampleTracked "Show.S01E01" sampleExtracted
      5 3660000000005 10860000000005 rfl rfl (Or.inl ⟨rfl, rfl⟩)
      (by decide) (by decide) (by decide)).1.1,
    (single_record_lifecycle sampleHelpers sampleTracked "Show.S01E01" sampleExtracted
      5 3660000000005 10860000000005 rfl rfl (Or.inl ⟨rfl, rfl⟩)
      (by decide) (by decide) (by decide)).2.1.2.1,
    (single_record_lifecycle sampleHelpers sampleTracked "Show.S01E01" sampleExtracted
      5 3660000000005 10860000000005 rfl rfl (Or.inl ⟨rfl, rfl⟩)
      (by decide) (by decide) (by decide)).2.2.2.2.2⟩

/-! ## Deletes over a run of passes -/

/-- A handler job started by the `switch` carries the record and the name of the
entry it was started for. -/
theorem checkEntry_handler {deleteDelay now : Int} {name n : String} {d data : Extracts} :
    (checkEntry deleteDelay now name d = some (Job.handleSonarr data n) →
      data = d ∧ n = name) ∧
    (checkEntry deleteDelay now name d = some (Job.handleRadarr data n) →
      data = d ∧ n = name) := by
  unfold checkEntry
  constructor <;> intro hj <;> split_ifs at hj <;> simp at hj <;> exact ⟨hj.1.symm, hj.2.symm⟩

/-- A record that is gone, or `DELETED` or beyond, is so after a pass. -/
theorem advance_keeps_done (h : Helpers) (t : Int) (v : Unpackerr) (name : String)
    (hdone : v.History.Map.lookup name = none ∨
      ∃ d, v.History.Map.lookup name = some d ∧ d.Status ≥ DELETED) :
    (advance h t v).History.Map.lookup name = none ∨
      ∃ d, (advance h t v).History.Map.lookup name = some d ∧ d.Status ≥ DELETED := by
  rcases hdone with hnone | ⟨d, hd, hs⟩
  · exact Or.inl (pass_lookup_none h t v _ (List.Perm.refl _) name hnone)
  · have hl := pass_lookup h t v _ (List.Perm.refl _) name d hd
    have hgt : d.Status < EXTRACTED ∨ d.Status > IMPORTED :=
      Or.inr (Nat.lt_of_lt_of_le (by decide) hs)
    unfold checkEntry at hl
    by_cases hc : d.Status ≥ DELETED ∧ t - d.Updated ≥ wrapInt64 (v.DeleteDelay * 2)
    · rw [if_pos hc] at hl
      exact Or.inl (hl.trans (AList.lookup_erase name v.History.Map))
    · rw [if_neg hc, if_pos hgt] at hl
      exact Or.inr ⟨d, hl, hs⟩

/-- A record that is gone, or `DELETED` or beyond, is so after a run of passes. -/
theorem advanceAll_keeps_done (name : String) :
    ∀ (ps : List (Helpers × Int)) (v : Unpackerr),
      (v.History.Map.lookup name = none ∨
        ∃ d, v.History.Map.lookup name = some d ∧ d.Status ≥ DELETED) →
      ((advanceAll ps v).History.Map.lookup name = none ∨
        ∃ d, (advanceAll ps v).History.Map.lookup name = some d ∧ d.Status ≥ DELETED) := by
  intro ps
  induction ps with
  | nil => intro v hv; exact hv
  | cons p rest ih =>
    intro v hv
    exact ih (advance p.1 p.2 v) (advance_keeps_done p.1 p.2 v name hv)

/-- For a record that is gone, or `DELETED` or beyond, a pass starts no handler:
the only job it can start for the name is the reaper. -/
theorem done_gets_no_handler (t : Int) (v : Unpackerr) (name : String)
    (hdone : v.History.Map.lookup name = none ∨
      ∃ d, v.History.Map.lookup name = some d ∧ d.Status ≥ DELETED)
    (j : Job) (hj : j ∈ CheckExtractDone t v) (hn : j.name = name) :
    ∃ app, j = Job.finishFinished app name := by
  obtain ⟨d, hd, hc⟩ := mem_CheckExtractDone.mp hj
  rw [hn] at hd hc
  rcases hdone with hnone | ⟨d2, hd2, hs⟩
  · rw [hnone] at hd
    exact Option.noConfusion hd
  · rw [hd2] at hd
    rw [← Option.some.inj hd] at hc
    have hgt : d2.Status < EXTRACTED ∨ d2.Status > IMPORTED :=
      Or.inr (Nat.lt_of_lt_of_le (by decide) hs)
    unfold checkEntry at hc
    split_ifs at hc
    exact ⟨d2.App, (Option.some.inj hc).symm⟩

/-- The record stored under the name after a handler that calls `deleteFiles`. -/
theorem handled_lookup_of_callsDelete (now : Int) (u : Unpackerr) (item : QueueItem)
    (data : Extracts) (name : String) (hc : callsDelete item u.DeleteDelay now data = true) :
    data.Status = IMPORTED ∧ now - data.Updated ≥ u.DeleteDelay ∧
    (handled now u item data name).History.Map.lookup name =
      some { data with Status := DELETED, Updated := now } := by
  obtain ⟨h1, h2, h3, h4⟩ := of_decide_eq_true hc
  refine ⟨h3, h4, ?_⟩
  rw [handled_lookup]
  simp only [h1, ne_eq, not_true_eq_false, if_false]
  rw [if_neg h2, if_neg (not_not.mpr h3), if_pos h4]

/-- A delete made by a job of a pass: the job is a handler started for a stored
`IMPORTED` record as old as the delete delay, the files are the record's, and
the job leaves the record `DELETED`. -/
theorem deleted_event (h : Helpers) (t : Int) (v : Unpackerr) (j : Job)
    (hj : j ∈ CheckExtractDone t v) (name : String) (files : List String)
    (he : j.deleted h t v = some (name, files)) :
    j.name = name ∧
    ∃ d, v.History.Map.lookup name = some d ∧ d.Status = IMPORTED ∧ d.Files = files ∧
      t - d.Updated ≥ v.DeleteDelay ∧
      (j.run h t v).History.Map.lookup name =
        some { d with Status := DELETED, Updated := t } := by
  obtain ⟨d, hd, hc⟩ := mem_CheckExtractDone.mp hj
  cases j with
  | finishFinished app n => simp [Job.deleted] at he
  | handleSonarr data n =>
    simp only [Job.deleted] at he
    split_ifs at he with hcall
    have hn : n = name := congrArg Prod.fst (Option.some.inj he)
    have hf : data.Files = files := congrArg Prod.snd (Option.some.inj he)
    have hdata : data = d := (checkEntry_handler.1 hc).1
    subst hn
    subst hdata
    obtain ⟨h3, h4, hl⟩ := handled_lookup_of_callsDelete t v _ data n hcall
    refine ⟨rfl, data, hd, h3, hf, h4, ?_⟩
    show (handleSonarr h t v data n).History.Map.lookup n = _
    rw [handleSonarr_eq_handled]
    exact hl
  | handleRadarr data n =>
    simp only [Job.deleted] at he
    split_ifs at he with hcall
    have hn : n = name := congrArg Prod.fst (Option.some.inj he)
    have hf : data.Files = files := congrArg Prod.snd (Option.some.inj he)
    have hdata : data = d := (checkEntry_handler.2 hc).1
    subst hn
    subst hdata
    obtain ⟨h3, h4, hl⟩ := handled_lookup_of_callsDelete t v _ data n hcall
    refine ⟨rfl, data, hd, h3, hf, h4, ?_⟩
    show (handleRadarr h t v data n).History.Map.lookup n = _
    rw [handleRadarr_eq_handled]
    exact hl

/-- C20. In a pass, the trace of deletes grows by exactly the `deleteFiles` calls
of its jobs, at most one per name. Each such call is made for a record that is
stored as `IMPORTED` when the pass starts (the copy handed to the handler is the
stored record) and is `DELETED` with `updated = now` when the pass ends, and its
argument is the record's files. After that pass, whatever passes follow, at any
times and with any lookups, no pass starts a handler for that name (the only job
it can start for it is the reaper) and no pass makes a delete for it. -/
theorem delete_once (h : Helpers) (t : Int) (v : Unpackerr) :
    (advance h t v).Deleted = v.Deleted ++ (passDeletes h t v).map Prod.snd ∧
    ((passDeletes h t v).map Prod.fst).Nodup ∧
    (∀ (name : String) (files : List String), (name, files) ∈ passDeletes h t v →
      (∃ d, v.History.Map.lookup name = some d ∧ d.Status = IMPORTED ∧ d.Files = files ∧
        t - d.Updated ≥ v.DeleteDelay ∧
        (advance h t v).History.Map.lookup name =
          some { d with Status := DELETED, Updated := t }) ∧
      (∀ (later : List (Helpers × Int)) (h2 : Helpers) (t2 : Int),
        (∀ j ∈ CheckExtractDone t2 (advanceAll later (advance h t v)), j.name = name →
          ∃ app, j = Job.finishFinished app name) ∧
        (∀ files2 : List String,
          (name, files2) ∉ passDeletes h2 t2 (advanceAll later (advance h t v))))) := by
  refine ⟨runTasks_Deleted h t v _ v rfl rfl rfl, ?_, ?_⟩
  · exact (deleted_names_sublist h t v _).nodup (CheckExtractDone_names_nodup t v)
  · intro name files hmem
    obtain ⟨j, hj, he⟩ := List.mem_filterMap.mp hmem
    obtain ⟨hn, d, hd, hs, hf, hold, hrun⟩ := deleted_event h t v j hj name files he
    have hafter : (advance h t v).History.Map.lookup name =
        some { d with Status := DELETED, Updated := t } := by
      have hnd := CheckExtractDone_names_nodup t v
      have hl := runTasks_lookup_of_mem h t j v (CheckExtractDone t v) v hnd hj rfl rfl rfl rfl
      rw [hn] at hl
      exact hl.trans hrun
    refine ⟨⟨d, hd, hs, hf, hold, hafter⟩, ?_⟩
    intro later h2 t2
    have hdone := advanceAll_keeps_done name later (advance h t v)
      (Or.inr ⟨_, hafter, Nat.le_refl _⟩)
    refine ⟨fun j2 hj2 hn2 => done_gets_no_handler t2 _ name hdone j2 hj2 hn2, ?_⟩
    intro files2 hmem2
    obtain ⟨j2, hj2, he2⟩ := List.mem_filterMap.mp hmem2
    have hn2 : j2.name = name := (Job.deleted_name he2).symm
    obtain ⟨app, hfin⟩ := done_gets_no_handler t2 _ name hdone j2 hj2 hn2
    rw [hfin] at he2
    exact Option.noConfusion he2

/-- One delete, then none: the sample record, `IMPORTED` at 0, is deleted by the
pass at two hours; the pass that follows at three hours, which finds the name in
no queue, makes no delete for it. -/
theorem delete_once_witness :
    ("Show.S01E01", ["a.rar"]) ∈ passDeletes sampleHelpers 7200000000000 sampleImportedState ∧
    ∀ files2 : List String,
      ("Show.S01E01", files2) ∉ passDeletes sampleHelpers 10800000000000
        (advanceAll [] (advance sampleHelpers 7200000000000 sampleImportedState)) :=
  ⟨by decide,
    (((delete_once sampleHelpers 7200000000000 sampleImportedState).2.2
      "Show.S01E01" ["a.rar"] (by decide)).2 [] sampleHelpers 10800000000000).2⟩

end Unpacker
